import Mathlib

/-!
# TerraGrid core engine: formal model and verification

A shallow embedding of the TerraGrid Pro terrain computation core
(src/js/contour.js and src/js/analysis.js) together with proofs about it.

Modelling conventions:
* An elevation grid is a function onto optional values plus explicit
  dimensions; an entry of value none models the JavaScript null / absent entry.
* The contour engine and the cut/fill computation only use field arithmetic
  and comparisons, so they are embedded over the rationals, where every
  JavaScript arithmetic step is expressed exactly and everything is decidable.
* Slope and flow direction use square roots and arctangents, so they are
  embedded over the reals.
* A JavaScript expression that can be non-finite (division by zero producing
  Infinity or NaN, later discarded by an isFinite test) is modelled with
  Option: the value is none exactly when the JavaScript value is non-finite.
* The two while loops of mergeSegments and the level loop of generateContours
  are modelled with explicit fuel; fuel bounds are chosen so that in every
  terminating run of the JavaScript code the Lean function computes the same
  answer (each merge loop step consumes one previously unused segment, so
  the number of segments bounds the iteration count).
-/

namespace TerraGrid

/-- One contour line piece in fractional grid coordinates, from contour.js:
segments are pushed as x1, y1, x2, y2 records. -/
structure Seg where
  x1 : ℚ
  y1 : ℚ
  x2 : ℚ
  y2 : ℚ
deriving DecidableEq

/-- A polyline: ordered list of 2D points in grid coordinates. -/
abbrev Polyline := List (ℚ × ℚ)

/-- One level of contour output, from generateContours in contour.js. -/
structure ContourLevel where
  level : ℚ
  isMajor : Bool
  polylines : List Polyline
deriving DecidableEq

/-- The Marching Squares lookup table MS_SEGMENTS of contour.js:
case index (0..15) to list of edge pairs, edges numbered
0=top, 1=right, 2=bottom, 3=left. -/
def msSegments : ℕ → List (ℕ × ℕ)
  | 1 => [(3, 2)]
  | 2 => [(2, 1)]
  | 3 => [(3, 1)]
  | 4 => [(0, 1)]
  | 5 => [(3, 0), (2, 1)]
  | 6 => [(0, 2)]
  | 7 => [(3, 0)]
  | 8 => [(3, 0)]
  | 9 => [(0, 2)]
  | 10 => [(0, 3), (1, 2)]
  | 11 => [(0, 1)]
  | 12 => [(3, 1)]
  | 13 => [(2, 1)]
  | 14 => [(3, 2)]
  | _ => []

/-- The 4-bit Marching Squares case index of contour.js, computed from the
four corner classification bits in the order
(b00 << 3) | (b10 << 2) | (b11 << 1) | b01. -/
def toIdx (b00 b10 b11 b01 : Bool) : ℕ :=
  (cond b00 8 0) + (cond b10 4 0) + (cond b11 2 0) + (cond b01 1 0)

/-- The classification bits of the two corners lying on edge e, given the four
corner bits: edge 0 joins corners 00 and 10, edge 1 joins 10 and 11,
edge 2 joins 01 and 11, edge 3 joins 00 and 01. -/
def edgeBits (b00 b10 b11 b01 : Bool) : ℕ → Bool × Bool
  | 0 => (b00, b10)
  | 1 => (b10, b11)
  | 2 => (b01, b11)
  | 3 => (b00, b01)
  | _ => (b00, b00)

/-- edgeMidpoint of contour.js: interpolated crossing point on edge e of a
cell, in cell-local coordinates. The JavaScript function divides by the
difference of the two edge corner values and the caller discards the segment
if a coordinate is non-finite; here the value is none exactly in that
non-finite case (zero denominator). -/
def edgeMidpoint (e : ℕ) (v00 v10 v01 v11 level : ℚ) : Option (ℚ × ℚ) :=
  match e with
  | 0 => if v10 - v00 = 0 then none else some ((level - v00) / (v10 - v00), 0)
  | 1 => if v11 - v10 = 0 then none else some (1, (level - v10) / (v11 - v10))
  | 2 => if v11 - v01 = 0 then none else some ((level - v01) / (v11 - v01), 1)
  | 3 => if v01 - v00 = 0 then none else some (0, (level - v00) / (v01 - v00))
  | _ => none

/-- The case index of one cell: each corner at or above the level counts as
above (strict below counts as 0), per computeSegments in contour.js. -/
def cellIdx (v00 v10 v01 v11 level : ℚ) : ℕ :=
  toIdx (decide (level ≤ v00)) (decide (level ≤ v10))
    (decide (level ≤ v11)) (decide (level ≤ v01))

/-- The segments one complete cell (top-left corner at row r, column c)
contributes at a level: the table rows for its case index, each kept only if
both interpolated endpoints are finite, translated into grid coordinates. -/
def cellSegs (v00 v10 v01 v11 level : ℚ) (r c : ℕ) : List Seg :=
  (msSegments (cellIdx v00 v10 v01 v11 level)).filterMap fun e =>
    match edgeMidpoint e.1 v00 v10 v01 v11 level,
        edgeMidpoint e.2 v00 v10 v01 v11 level with
    | some p1, some p2 =>
        some ⟨(c : ℚ) + p1.1, (r : ℚ) + p1.2, (c : ℚ) + p2.1, (r : ℚ) + p2.2⟩
    | _, _ => none

/-- computeSegments of contour.js: scan all 2x2 cells in row-major order,
skip any cell with an absent corner, and collect each complete cell's
table segments. -/
def computeSegments (grid : ℕ → ℕ → Option ℚ) (rows cols : ℕ) (level : ℚ) :
    List Seg :=
  (List.range (rows - 1)).flatMap fun r =>
    (List.range (cols - 1)).flatMap fun c =>
      match grid r c, grid r (c + 1), grid (r + 1) c, grid (r + 1) (c + 1) with
      | some v00, some v10, some v01, some v11 =>
          cellSegs v00 v10 v01 v11 level r c
      | _, _, _, _ => []

/-- The endpoint key of mergeSegments in contour.js: both coordinates rounded
to the nearest multiple of the tolerance (JavaScript Math.round rounds half
toward positive infinity, which is the floor of the value plus one half). -/
def segKey (tol x y : ℚ) : ℚ × ℚ :=
  ((⌊x / tol + 1 / 2⌋ : ℚ) * tol, (⌊y / tol + 1 / 2⌋ : ℚ) * tol)

/-- The adjacency entries stored under one key, in insertion order: segments
are scanned in index order and each segment first registers its first
endpoint (end marker false, JavaScript end === 1) and then its second
(end marker true, JavaScript end === 2).  The list returned for a key k is
exactly what adj.get(k) holds in mergeSegments. -/
def adjFrom (tol : ℚ) (k : ℚ × ℚ) : ℕ → List Seg → List (ℕ × Bool)
  | _, [] => []
  | i, s :: rest =>
      (if segKey tol s.x1 s.y1 = k then [(i, false)] else []) ++
      (if segKey tol s.x2 s.y2 = k then [(i, true)] else []) ++
      adjFrom tol k (i + 1) rest

/-- All adjacency entries of the segment list under key k. -/
def adjAt (segs : List Seg) (tol : ℚ) (k : ℚ × ℚ) : List (ℕ × Bool) :=
  adjFrom tol k 0 segs

/-- A default segment used for the (never reached) out-of-range index case of
list indexing in the merge loops. -/
def dummySeg : Seg := ⟨0, 0, 0, 0⟩

/-- The forward extension loop of mergeSegments: while some unused segment
shares (up to key rounding) the trailing endpoint of the polyline, consume the
first such adjacency entry and append that segment's other endpoint. -/
def extendF (segs : List Seg) (tol : ℚ) :
    ℕ → Finset ℕ → Polyline → Finset ℕ × Polyline
  | 0, used, pts => (used, pts)
  | fuel + 1, used, pts =>
      match pts.getLast? with
      | none => (used, pts)
      | some lastPt =>
          match (adjAt segs tol (segKey tol lastPt.1 lastPt.2)).find?
              (fun e => decide (e.1 ∉ used)) with
          | none => (used, pts)
          | some e =>
              let s := segs.getD e.1 dummySeg
              let p := if e.2 then (s.x1, s.y1) else (s.x2, s.y2)
              extendF segs tol fuel (insert e.1 used) (pts ++ [p])

/-- The backward extension loop of mergeSegments: same, from the leading
endpoint, prepending the other endpoint of the consumed segment. -/
def extendB (segs : List Seg) (tol : ℚ) :
    ℕ → Finset ℕ → Polyline → Finset ℕ × Polyline
  | 0, used, pts => (used, pts)
  | fuel + 1, used, pts =>
      match pts.head? with
      | none => (used, pts)
      | some firstPt =>
          match (adjAt segs tol (segKey tol firstPt.1 firstPt.2)).find?
              (fun e => decide (e.1 ∉ used)) with
          | none => (used, pts)
          | some e =>
              let s := segs.getD e.1 dummySeg
              let p := if e.2 then (s.x1, s.y1) else (s.x2, s.y2)
              extendB segs tol fuel (insert e.1 used) (p :: pts)

/-- The outer loop of mergeSegments: for each segment index in order, if the
segment is still unused, seed a polyline with its two endpoints, extend
forward and backward, and emit the polyline when it has at least two points
(it always does).  One fuel unit is spent per candidate start index. -/
def mergeFrom (segs : List Seg) (tol : ℚ) :
    ℕ → ℕ → Finset ℕ → List Polyline
  | 0, _, _ => []
  | fuel + 1, i, used =>
      if i < segs.length then
        if i ∈ used then mergeFrom segs tol fuel (i + 1) used
        else
          let s := segs.getD i dummySeg
          let r1 := extendF segs tol segs.length (insert i used)
            [(s.x1, s.y1), (s.x2, s.y2)]
          let r2 := extendB segs tol segs.length r1.1 r1.2
          (if 2 ≤ r2.2.length then [r2.2] else []) ++
            mergeFrom segs tol fuel (i + 1) r2.1
      else []

/-- mergeSegments of contour.js. -/
def mergeSegments (segs : List Seg) (tol : ℚ) : List Polyline :=
  if segs.isEmpty then [] else mergeFrom segs tol segs.length 0 ∅

/-- The default tolerance of mergeSegments (tol = 1e-6). -/
def defaultTol : ℚ := 1 / 1000000

/-- Utils.round of utils.js at 6 decimal places, as used by generateContours:
JavaScript Math.round(v * 10^6) / 10^6 with round-half-up. -/
def round6 (q : ℚ) : ℚ := ((⌊q * 1000000 + 1 / 2⌋ : ℚ)) / 1000000

/-- The row-major list of present grid values, as grid.flat().filter(...) in
generateContours (no rational is NaN, so the isNaN test never fires here). -/
def gridVals (grid : ℕ → ℕ → Option ℚ) (rows cols : ℕ) : List ℚ :=
  (List.range rows).flatMap fun r =>
    (List.range cols).filterMap fun c => grid r c

/-- Minimum of a value list (Math.min over a spread nonempty list; the empty
case is never reached on the live path of generateContours). -/
def listMin : List ℚ → ℚ
  | [] => 0
  | v :: vs => vs.foldl min v

/-- Maximum of a value list. -/
def listMax : List ℚ → ℚ
  | [] => 0
  | v :: vs => vs.foldl max v

/-- Minimum present value of a grid. -/
def gridMin (grid : ℕ → ℕ → Option ℚ) (rows cols : ℕ) : ℚ :=
  listMin (gridVals grid rows cols)

/-- Maximum present value of a grid. -/
def gridMax (grid : ℕ → ℕ → Option ℚ) (rows cols : ℕ) : ℚ :=
  listMax (gridVals grid rows cols)

/-- The sequence of levels actually visited by the level loop of
generateContours: starting from the start level, each iteration first rounds
the loop variable to 6 decimals (that rounded value is the level used) and
then adds the interval; the loop runs while the pre-rounding value is at most
the maximum. -/
def scanLevels (interval maxV : ℚ) : ℕ → ℚ → List ℚ
  | 0, _ => []
  | fuel + 1, level =>
      if level ≤ maxV then
        round6 level :: scanLevels interval maxV fuel (round6 level + interval)
      else []

/-- The body of the level loop of generateContours: per visited level, compute
segments, merge them (default tolerance), and emit the level exactly when at
least one polyline was produced; isMajor is
Math.round(level / interval) % majorMultiplier === 0. -/
def contourLoop (grid : ℕ → ℕ → Option ℚ) (rows cols : ℕ)
    (interval maxV : ℚ) (majorMult : ℤ) : ℕ → ℚ → List ContourLevel
  | 0, _ => []
  | fuel + 1, level0 =>
      if level0 ≤ maxV then
        let level := round6 level0
        let polylines :=
          mergeSegments (computeSegments grid rows cols level) defaultTol
        let rest :=
          contourLoop grid rows cols interval maxV majorMult fuel
            (level + interval)
        if polylines.length > 0 then
          ⟨level, decide (⌊level / interval + 1 / 2⌋ % majorMult = 0),
            polylines⟩ :: rest
        else rest
      else []

/-- The fuel used for the level loop: enough for every terminating run
(one unit per interval step from the start level to the maximum, plus slack
for the boundary iterations). -/
def levelFuel (startLevel maxV interval : ℚ) : ℕ :=
  (⌈(maxV - startLevel) / interval⌉).toNat + 2

/-- The start level of generateContours: Math.ceil(minV / interval) *
interval. -/
def startLevel (grid : ℕ → ℕ → Option ℚ) (rows cols : ℕ) (interval : ℚ) :
    ℚ :=
  (⌈gridMin grid rows cols / interval⌉ : ℚ) * interval

/-- generateContours of contour.js. -/
def generateContours (grid : ℕ → ℕ → Option ℚ) (rows cols : ℕ)
    (interval : ℚ) (majorMult : ℤ) : List ContourLevel :=
  if rows < 2 ∨ cols < 2 then []
  else if (gridVals grid rows cols).length < 4 then []
  else
    contourLoop grid rows cols interval (gridMax grid rows cols) majorMult
      (levelFuel (startLevel grid rows cols interval)
        (gridMax grid rows cols) interval)
      (startLevel grid rows cols interval)

/-- Decompose a polyline into its consecutive point-pair segments. -/
def decompose (pts : Polyline) : List Seg :=
  (pts.zip pts.tail).map fun p => ⟨p.1.1, p.1.2, p.2.1, p.2.2⟩

/-! ## Analysis engine (analysis.js) -/

/-- The left neighbor value used by computeSlope: grid[r][c-1] when c > 0,
absent otherwise. -/
def nbLeft (grid : ℕ → ℕ → Option ℝ) (r c : ℕ) : Option ℝ :=
  if 0 < c then grid r (c - 1) else none

/-- The right neighbor value used by computeSlope: grid[r][c+1] when
c < cols - 1, absent otherwise. -/
def nbRight (grid : ℕ → ℕ → Option ℝ) (cols r c : ℕ) : Option ℝ :=
  if c < cols - 1 then grid r (c + 1) else none

/-- The upper neighbor value used by computeSlope. -/
def nbUp (grid : ℕ → ℕ → Option ℝ) (r c : ℕ) : Option ℝ :=
  if 0 < r then grid (r - 1) c else none

/-- The lower neighbor value used by computeSlope. -/
def nbDown (grid : ℕ → ℕ → Option ℝ) (rows r c : ℕ) : Option ℝ :=
  if r < rows - 1 then grid (r + 1) c else none

/-- The x-axis derivative estimate of computeSlope in analysis.js: central
difference when both horizontal neighbors exist, otherwise a one-sided
difference against the center when exactly one neighbor and the center
exist, otherwise no derivative (the valid flag is cleared). -/
noncomputable def xDeriv (grid : ℕ → ℕ → Option ℝ) (cols : ℕ) (spacing : ℝ) (r c : ℕ) :
    Option ℝ :=
  match nbLeft grid r c, nbRight grid cols r c, grid r c with
  | some l, some rt, _ => some ((rt - l) / (2 * spacing))
  | none, some rt, some z => some ((rt - z) / spacing)
  | some l, none, some z => some ((z - l) / spacing)
  | _, _, _ => none

/-- The y-axis derivative estimate of computeSlope in analysis.js. -/
noncomputable def yDeriv (grid : ℕ → ℕ → Option ℝ) (rows : ℕ) (spacing : ℝ) (r c : ℕ) :
    Option ℝ :=
  match nbUp grid r c, nbDown grid rows r c, grid r c with
  | some u, some d, _ => some ((d - u) / (2 * spacing))
  | none, some d, some z => some ((d - z) / spacing)
  | some u, none, some z => some ((z - u) / spacing)
  | _, _, _ => none

/-- computeSlope of analysis.js: the slope output at one point, which is
present exactly when both axes produced a derivative and the point itself is
present, and then equals the gradient magnitude times 100 (percent grade). -/
noncomputable def computeSlope (grid : ℕ → ℕ → Option ℝ) (rows cols : ℕ)
    (spacing : ℝ) (r c : ℕ) : Option ℝ :=
  if r < rows ∧ c < cols then
    match xDeriv grid cols spacing r c, yDeriv grid rows spacing r c,
        grid r c with
    | some dzx, some dzy, some _ =>
        some (Real.sqrt (dzx * dzx + dzy * dzy) * 100)
    | _, _, _ => none
  else none

/-- The 8 neighbor offsets of computeFlowDirection in scan order: row delta
-1..1 outer, column delta -1..1 inner, skipping (0,0). -/
def flowOffsets : List (ℤ × ℤ) :=
  [(-1, -1), (-1, 0), (-1, 1), (0, -1), (0, 1), (1, -1), (1, 0), (1, 1)]

/-- The valid neighbors of a point with their downhill drops, in scan order:
out-of-bounds and absent neighbors are skipped; the drop of a neighbor is
(center - neighbor) / (spacing * sqrt(dr^2 + dc^2)), per
computeFlowDirection in analysis.js. -/
noncomputable def neighborDrops (grid : ℕ → ℕ → Option ℝ) (rows cols : ℕ)
    (spacing : ℝ) (r c : ℕ) (z : ℝ) : List ((ℤ × ℤ) × ℝ) :=
  flowOffsets.filterMap fun d =>
    let nr := (r : ℤ) + d.1
    let nc := (c : ℤ) + d.2
    if 0 ≤ nr ∧ nr < (rows : ℤ) ∧ 0 ≤ nc ∧ nc < (cols : ℤ) then
      match grid nr.toNat nc.toNat with
      | some nz =>
          some (d, (z - nz) /
            (spacing * Real.sqrt ((d.1 * d.1 + d.2 * d.2 : ℤ) : ℝ)))
      | none => none
    else none

/-- One step of the steepest-descent scan of computeFlowDirection: the
accumulator (best drop, best row delta, best column delta) is replaced
exactly when the new drop strictly exceeds the best drop, so ties keep the
earlier neighbor. -/
noncomputable def bestStep (acc : ℝ × ℤ × ℤ) (x : (ℤ × ℤ) × ℝ) :
    ℝ × ℤ × ℤ :=
  if acc.1 < x.2 then (x.2, x.1.1, x.1.2) else acc

/-- JavaScript Math.atan2(y, x) on real inputs. -/
noncomputable def atan2 (y x : ℝ) : ℝ :=
  if 0 < x then Real.arctan (y / x)
  else if x < 0 then
    (if 0 ≤ y then Real.arctan (y / x) + Real.pi
     else Real.arctan (y / x) - Real.pi)
  else
    (if 0 < y then Real.pi / 2 else if y < 0 then -(Real.pi / 2) else 0)

/-- computeFlowDirection of analysis.js at one point: absent when the point
is absent, otherwise scan the neighbors for the largest strictly positive
drop (initial best 0, strict improvement, so ties keep the first scanned)
and store atan2(bestDr, bestDc); absent when no neighbor had positive drop. -/
noncomputable def computeFlowDirection (grid : ℕ → ℕ → Option ℝ)
    (rows cols : ℕ) (spacing : ℝ) (r c : ℕ) : Option ℝ :=
  if r < rows ∧ c < cols then
    match grid r c with
    | none => none
    | some z =>
        let best :=
          (neighborDrops grid rows cols spacing r c z).foldl bestStep
            (0, 0, 0)
        if 0 < best.1 then some (atan2 (best.2.1 : ℝ) (best.2.2 : ℝ))
        else none
  else none

/-- The result record of computeCutFill. -/
structure CutFillResult where
  cutVol : ℚ
  fillVol : ℚ
  netVol : ℚ
deriving DecidableEq

/-- The row-major list of 2x2 cell anchors (top-left corners) scanned by the
cell loops of analysis.js. -/
def cellList (rows cols : ℕ) : List (ℕ × ℕ) :=
  (List.range (rows - 1)).flatMap fun r =>
    (List.range (cols - 1)).map fun c => (r, c)

/-- The cut and fill contribution of one cell in computeCutFill: a complete
cell (all four corners present) contributes |cellMean - datum| * spacing^2
to cut when cellMean - datum > 0 and to fill otherwise; an incomplete cell
contributes nothing. -/
def cellContrib (grid : ℕ → ℕ → Option ℚ) (spacing datum : ℚ)
    (rc : ℕ × ℕ) : ℚ × ℚ :=
  match grid rc.1 rc.2, grid rc.1 (rc.2 + 1), grid (rc.1 + 1) rc.2,
      grid (rc.1 + 1) (rc.2 + 1) with
  | some a, some b, some c, some d =>
      let avg := (a + b + c + d) / 4
      let diff := avg - datum
      let vol := |diff| * (spacing * spacing)
      if 0 < diff then (vol, 0) else (0, vol)
  | _, _, _, _ => (0, 0)

/-- computeCutFill of analysis.js: accumulate the per-cell contributions over
all cells; net volume is cut minus fill. -/
def computeCutFill (grid : ℕ → ℕ → Option ℚ) (rows cols : ℕ)
    (spacing datum : ℚ) : CutFillResult :=
  let acc := (cellList rows cols).foldl
    (fun (a : ℚ × ℚ) rc =>
      let contrib := cellContrib grid spacing datum rc
      (a.1 + contrib.1, a.2 + contrib.2)) (0, 0)
  ⟨acc.1, acc.2, acc.1 - acc.2⟩

/-! ## Concrete grids used as witnesses -/

/-- The all-zero 2x2 grid of the spec scenario, extended constantly. -/
def gFlat0 : ℕ → ℕ → Option ℚ := fun _ _ => some 0

/-- A constant grid whose value 1/2 is not a multiple of interval 1. -/
def gFlatHalf : ℕ → ℕ → Option ℚ := fun _ _ => some (1 / 2)

/-- The planar grid z = row + col (affine, non-constant). -/
def gDiag : ℕ → ℕ → Option ℚ := fun r c => some ((r : ℚ) + (c : ℚ))

/-- The 3x3 flow scenario grid [[10,10,10],[10,15,10],[10,10,10]],
extended by 10 outside. -/
noncomputable def gPeak : ℕ → ℕ → Option ℝ := fun r c =>
  if r = 1 ∧ c = 1 then some 15 else some 10

/-- A 1x2 real grid descending from 1 to 0. -/
noncomputable def gStep : ℕ → ℕ → Option ℝ := fun _ c =>
  if c = 0 then some 1 else some 0

/-- The all-zero real grid. -/
def gFlatR : ℕ → ℕ → Option ℝ := fun _ _ => some 0

/-- The two corner values lying on edge e of a cell, matching edgeBits. -/
def edgeVals (v00 v10 v01 v11 : ℚ) : ℕ → ℚ × ℚ
  | 0 => (v00, v10)
  | 1 => (v10, v11)
  | 2 => (v01, v11)
  | 3 => (v00, v01)
  | _ => (v00, v00)

/-! # Theorems -/

/-- The lookup table is nonempty exactly for the mixed cases: a case index
has at least one segment iff not all four corner bits agree. -/
theorem msSegments_ne_nil_iff :
    ∀ a b c d : Bool, msSegments (toIdx a b c d) ≠ [] ↔
      ¬(a = b ∧ b = c ∧ c = d) := by decide

/-- Every edge pair listed in the lookup table joins edges whose two corners
are classified on opposite sides of the level. -/
theorem msSegments_straddle :
    ∀ a b c d : Bool, ∀ p ∈ msSegments (toIdx a b c d),
      (edgeBits a b c d p.1).1 ≠ (edgeBits a b c d p.1).2 ∧
      (edgeBits a b c d p.2).1 ≠ (edgeBits a b c d p.2).2 := by decide

/-- Every edge named in the lookup table is one of the four real edges. -/
theorem msSegments_edge_lt :
    ∀ a b c d : Bool, ∀ p ∈ msSegments (toIdx a b c d),
      p.1 < 4 ∧ p.2 < 4 := by decide

/-- C1: for a cell of four valid corners classified to case 5 (top-right and
bottom-left at or above the level, top-left and bottom-right below),
computeSegments emits exactly the two segments pairing edges (left, top) and
(bottom, right); for case 10 (top-left and bottom-right at or above) exactly
the segments pairing (top, left) and (right, bottom).  The statement holds
for all corner values realizing the classification, so the pairing depends
only on the case index, not on the center average or corner magnitudes. -/
theorem saddle_cases_fixed_pairing :
    (∀ (v00 v10 v01 v11 level : ℚ) (r c : ℕ),
      v00 < level → level ≤ v10 → v11 < level → level ≤ v01 →
      cellIdx v00 v10 v01 v11 level = 5 ∧
      cellSegs v00 v10 v01 v11 level r c =
        [⟨(c : ℚ), (r : ℚ) + (level - v00) / (v01 - v00),
          (c : ℚ) + (level - v00) / (v10 - v00), (r : ℚ)⟩,
         ⟨(c : ℚ) + (level - v01) / (v11 - v01), (r : ℚ) + 1,
          (c : ℚ) + 1, (r : ℚ) + (level - v10) / (v11 - v10)⟩]) ∧
    (∀ (v00 v10 v01 v11 level : ℚ) (r c : ℕ),
      level ≤ v00 → v10 < level → level ≤ v11 → v01 < level →
      cellIdx v00 v10 v01 v11 level = 10 ∧
      cellSegs v00 v10 v01 v11 level r c =
        [⟨(c : ℚ) + (level - v00) / (v10 - v00), (r : ℚ),
          (c : ℚ), (r : ℚ) + (level - v00) / (v01 - v00)⟩,
         ⟨(c : ℚ) + 1, (r : ℚ) + (level - v10) / (v11 - v10),
          (c : ℚ) + (level - v01) / (v11 - v01), (r : ℚ) + 1⟩]) := by
  constructor
  · intro v00 v10 v01 v11 level r c h00 h10 h11 h01
    have hidx : cellIdx v00 v10 v01 v11 level = 5 := by
      simp [cellIdx, toIdx, not_le.mpr h00, h10, not_le.mpr h11, h01]
    refine ⟨hidx, ?_⟩
    have d3 : v01 - v00 ≠ 0 :=
      sub_ne_zero.mpr (ne_of_gt (lt_of_lt_of_le h00 h01))
    have d0 : v10 - v00 ≠ 0 :=
      sub_ne_zero.mpr (ne_of_gt (lt_of_lt_of_le h00 h10))
    have d2 : v11 - v01 ≠ 0 :=
      sub_ne_zero.mpr (ne_of_lt (lt_of_lt_of_le h11 h01))
    have d1 : v11 - v10 ≠ 0 :=
      sub_ne_zero.mpr (ne_of_lt (lt_of_lt_of_le h11 h10))
    simp only [cellSegs, hidx]
    simp [msSegments, edgeMidpoint, d0, d1, d2, d3]
  · intro v00 v10 v01 v11 level r c h00 h10 h11 h01
    have hidx : cellIdx v00 v10 v01 v11 level = 10 := by
      simp [cellIdx, toIdx, h00, not_le.mpr h10, h11, not_le.mpr h01]
    refine ⟨hidx, ?_⟩
    have d3 : v01 - v00 ≠ 0 :=
      sub_ne_zero.mpr (ne_of_lt (lt_of_lt_of_le h01 h00))
    have d0 : v10 - v00 ≠ 0 :=
      sub_ne_zero.mpr (ne_of_lt (lt_of_lt_of_le h10 h00))
    have d2 : v11 - v01 ≠ 0 :=
      sub_ne_zero.mpr (ne_of_gt (lt_of_lt_of_le h01 h11))
    have d1 : v11 - v10 ≠ 0 :=
      sub_ne_zero.mpr (ne_of_gt (lt_of_lt_of_le h10 h11))
    simp only [cellSegs, hidx]
    simp [msSegments, edgeMidpoint, d0, d1, d2, d3]

/-- Witness for C1 at concrete corner values v00=0, v10=2, v01=2, v11=0 and
level 1 (a case 5 saddle). -/
theorem saddle_cases_fixed_pairing_witness :
    cellIdx 0 2 2 0 1 = 5 ∧
    cellSegs 0 2 2 0 1 0 0 =
      [⟨0, 1 / 2, 1 / 2, 0⟩, ⟨1 / 2, 1, 1, 1 / 2⟩] := by
  have h := saddle_cases_fixed_pairing.1 0 2 2 0 1 0 0
    (by norm_num) (by norm_num) (by norm_num) (by norm_num)
  norm_num at h
  exact h

/-! ## Support lemmas for generateContours -/

theorem mem_gridVals {grid : ℕ → ℕ → Option ℚ} {rows cols : ℕ} {x : ℚ} :
    x ∈ gridVals grid rows cols ↔
      ∃ r, r < rows ∧ ∃ c, c < cols ∧ grid r c = some x := by
  simp [gridVals]

theorem foldl_min_const :
    ∀ (l : List ℚ) (a v : ℚ), (∀ x ∈ l, x = v) → a = v →
      l.foldl min a = v := by
  intro l
  induction l with
  | nil => intro a v _ ha; simpa using ha
  | cons w ws ih =>
      intro a v h ha
      have hw : w = v := h w (by simp)
      simp only [List.foldl_cons]
      exact ih (min a w) v (fun x hx => h x (by simp [hx]))
        (by rw [ha, hw, min_self])

theorem foldl_max_const :
    ∀ (l : List ℚ) (a v : ℚ), (∀ x ∈ l, x = v) → a = v →
      l.foldl max a = v := by
  intro l
  induction l with
  | nil => intro a v _ ha; simpa using ha
  | cons w ws ih =>
      intro a v h ha
      have hw : w = v := h w (by simp)
      simp only [List.foldl_cons]
      exact ih (max a w) v (fun x hx => h x (by simp [hx]))
        (by rw [ha, hw, max_self])

theorem listMin_const {l : List ℚ} {v : ℚ} (h : ∀ x ∈ l, x = v)
    (hne : l ≠ []) : listMin l = v := by
  cases l with
  | nil => exact absurd rfl hne
  | cons w ws =>
      exact foldl_min_const ws w v (fun x hx => h x (by simp [hx]))
        (h w (by simp))

theorem listMax_const {l : List ℚ} {v : ℚ} (h : ∀ x ∈ l, x = v)
    (hne : l ≠ []) : listMax l = v := by
  cases l with
  | nil => exact absurd rfl hne
  | cons w ws =>
      exact foldl_max_const ws w v (fun x hx => h x (by simp [hx]))
        (h w (by simp))

/-- The level loop produces nothing when it starts above the maximum. -/
theorem contourLoop_empty_of_gt {grid : ℕ → ℕ → Option ℚ}
    {rows cols : ℕ} {interval maxV level0 : ℚ} {mm : ℤ}
    (h : maxV < level0) :
    ∀ fuel, contourLoop grid rows cols interval maxV mm fuel level0 = [] := by
  intro fuel
  cases fuel with
  | zero => rfl
  | succ n => simp [contourLoop, not_le.mpr h]

/-- A cell whose four corners are equal never contributes a segment: its
case index is 0 or 15 and the table is empty there. -/
theorem cellSegs_const (v level : ℚ) (r c : ℕ) :
    cellSegs v v v v level r c = [] := by
  unfold cellSegs cellIdx toIdx
  by_cases h : level ≤ v <;> simp [h, msSegments]

/-- computeSegments on a flat grid (every present entry equal to v) is empty
at every level. -/
theorem computeSegments_flat {grid : ℕ → ℕ → Option ℚ} {rows cols : ℕ}
    {v : ℚ}
    (hflat : ∀ r c, r < rows → c < cols → ∀ x, grid r c = some x → x = v)
    (level : ℚ) : computeSegments grid rows cols level = [] := by
  unfold computeSegments
  rw [List.flatMap_eq_nil_iff]
  intro r hr
  rw [List.mem_range] at hr
  rw [List.flatMap_eq_nil_iff]
  intro c hc
  rw [List.mem_range] at hc
  have hr1 : r < rows := lt_of_lt_of_le hr (Nat.sub_le _ _)
  have hr2 : r + 1 < rows := by omega
  have hc1 : c < cols := lt_of_lt_of_le hc (Nat.sub_le _ _)
  have hc2 : c + 1 < cols := by omega
  cases h00 : grid r c with
  | none => simp
  | some a =>
      cases h10 : grid r (c + 1) with
      | none => simp
      | some b =>
          cases h01 : grid (r + 1) c with
          | none => simp
          | some d =>
              cases h11 : grid (r + 1) (c + 1) with
              | none => simp
              | some e =>
                  simp only
                  rw [hflat r c hr1 hc1 a h00,
                    hflat r (c + 1) hr1 hc2 b h10,
                    hflat (r + 1) c hr2 hc1 d h01,
                    hflat (r + 1) (c + 1) hr2 hc2 e h11]
                  exact cellSegs_const v level r c

/-- The level loop on a flat grid emits nothing, whatever the fuel and
start level. -/
theorem contourLoop_flat {grid : ℕ → ℕ → Option ℚ} {rows cols : ℕ} {v : ℚ}
    (hflat : ∀ r c, r < rows → c < cols → ∀ x, grid r c = some x → x = v)
    (interval maxV : ℚ) (mm : ℤ) :
    ∀ fuel level0,
      contourLoop grid rows cols interval maxV mm fuel level0 = [] := by
  intro fuel
  induction fuel with
  | zero => intro level0; rfl
  | succ n ih =>
      intro level0
      unfold contourLoop
      by_cases h : level0 ≤ maxV
      · rw [if_pos h]
        simp only [computeSegments_flat hflat, mergeSegments,
          List.isEmpty_nil, if_pos rfl]
        simpa using ih (round6 level0 + interval)
      · rw [if_neg h]

/-- If a rational is not an integer multiple of a positive interval, the
start level rounds it strictly upward. -/
theorem lt_ceil_mul {v interval : ℚ} (hi : 0 < interval)
    (hnb : ¬ ∃ k : ℤ, v = (k : ℚ) * interval) :
    v < (⌈v / interval⌉ : ℚ) * interval := by
  have h1 : v / interval ≤ (⌈v / interval⌉ : ℚ) := Int.le_ceil _
  have h2 : v ≤ (⌈v / interval⌉ : ℚ) * interval :=
    (div_le_iff₀ hi).mp h1
  rcases lt_or_eq_of_le h2 with h | h
  · exact h
  · exact absurd ⟨⌈v / interval⌉, h⟩ hnb

/-- C8: generateContours returns the empty list (our total model returns a
value rather than raising) whenever the grid has fewer than 2 rows, fewer
than 2 columns, or fewer than 4 non-absent samples. -/
theorem generateContours_small_empty
    (grid : ℕ → ℕ → Option ℚ) (rows cols : ℕ) (interval : ℚ) (mm : ℤ)
    (h : rows < 2 ∨ cols < 2 ∨ (gridVals grid rows cols).length < 4) :
    generateContours grid rows cols interval mm = [] := by
  unfold generateContours
  rcases h with h | h | h
  · rw [if_pos (Or.inl h)]
  · rw [if_pos (Or.inr h)]
  · by_cases h2 : rows < 2 ∨ cols < 2
    · rw [if_pos h2]
    · rw [if_neg h2, if_pos h]

/-- Witness for C8: a 1x5 grid yields no contours. -/
theorem generateContours_small_empty_witness :
    generateContours gFlat0 1 5 1 5 = [] :=
  generateContours_small_empty gFlat0 1 5 1 5 (Or.inl (by norm_num))

/-- C4: for every flat grid (all valid entries equal to one constant) and
interval > 0, generateContours returns the empty set when the constant is
not an exact level boundary (an integer multiple of the interval); and on
the concrete grid [[0,0],[0,0]] with interval 1 it returns []. -/
theorem flat_grid_contours_empty :
    (∀ (grid : ℕ → ℕ → Option ℚ) (rows cols : ℕ) (v interval : ℚ) (mm : ℤ),
      0 < interval →
      (∀ r c, r < rows → c < cols → ∀ x, grid r c = some x → x = v) →
      (¬ ∃ k : ℤ, v = (k : ℚ) * interval) →
      generateContours grid rows cols interval mm = []) ∧
    generateContours gFlat0 2 2 1 5 = [] := by
  constructor
  · intro grid rows cols v interval mm hi hflat hnb
    by_cases h2 : rows < 2 ∨ cols < 2
    · exact generateContours_small_empty _ _ _ _ _
        (by rcases h2 with h | h; exacts [Or.inl h, Or.inr (Or.inl h)])
    · by_cases h4 : (gridVals grid rows cols).length < 4
      · exact generateContours_small_empty _ _ _ _ _ (Or.inr (Or.inr h4))
      · have hall : ∀ x ∈ gridVals grid rows cols, x = v := by
          intro x hx
          rw [mem_gridVals] at hx
          obtain ⟨r, hr, c, hc, hx⟩ := hx
          exact hflat r c hr hc x hx
        have hne : gridVals grid rows cols ≠ [] := by
          intro h
          rw [h] at h4
          simp at h4
        have hmin : gridMin grid rows cols = v := listMin_const hall hne
        have hmax : gridMax grid rows cols = v := listMax_const hall hne
        have hstart : gridMax grid rows cols <
            startLevel grid rows cols interval := by
          rw [hmax]
          unfold startLevel
          rw [hmin]
          exact lt_ceil_mul hi hnb
        unfold generateContours
        rw [if_neg h2, if_neg h4]
        exact contourLoop_empty_of_gt hstart _
  · have hflat : ∀ r c, r < 2 → c < 2 → ∀ x, gFlat0 r c = some x → x = 0 := by
      intro r c _ _ x hx
      simpa [gFlat0] using hx.symm
    have hlen : (gridVals gFlat0 2 2).length = 4 := by
      norm_num [gridVals, gFlat0, List.range_succ, List.filterMap_cons]
    unfold generateContours
    rw [if_neg (by norm_num), if_neg (by rw [hlen]; norm_num)]
    exact contourLoop_flat hflat 1 _ 5 _ _

/-- Witness for C4: a constant-1/2 grid with interval 1 (1/2 is not a level
boundary) yields no contours. -/
theorem flat_grid_contours_empty_witness :
    generateContours gFlatHalf 2 2 1 5 = [] := by
  refine flat_grid_contours_empty.1 gFlatHalf 2 2 (1 / 2) 1 5 (by norm_num)
    ?_ ?_
  · intro r c _ _ x hx
    simpa [gFlatHalf] using hx.symm
  · rintro ⟨k, hk⟩
    rw [mul_one] at hk
    have : (2 : ℚ) * k = 1 := by rw [← hk]; norm_num
    have h2 : (2 * k : ℤ) = 1 := by exact_mod_cast this
    omega

/-! ## C5: cut and fill volumes -/

theorem foldl_pair_sum {α : Type} (f : α → ℚ × ℚ) :
    ∀ (l : List α) (a : ℚ × ℚ),
      l.foldl (fun acc x => (acc.1 + (f x).1, acc.2 + (f x).2)) a =
        (a.1 + (l.map fun x => (f x).1).sum,
         a.2 + (l.map fun x => (f x).2).sum) := by
  intro l
  induction l with
  | nil => intro a; simp
  | cons w ws ih =>
      intro a
      simp only [List.foldl_cons, List.map_cons, List.sum_cons]
      rw [ih]
      ring_nf

/-- C5: computeCutFill returns nonnegative cut and fill volumes with
net = cut - fill; each complete 2x2 cell contributes
|cellMean - datum| * spacing^2 to cut when cellMean - datum > 0 and to fill
otherwise, incomplete cells contribute nothing; and when the datum is
strictly below every valid value, the fill volume is 0 and the cut volume is
the sum of (cellMean - datum) * spacing^2 over complete cells. -/
theorem computeCutFill_spec (grid : ℕ → ℕ → Option ℚ) (rows cols : ℕ)
    (spacing datum : ℚ) :
    0 ≤ (computeCutFill grid rows cols spacing datum).cutVol ∧
    0 ≤ (computeCutFill grid rows cols spacing datum).fillVol ∧
    (computeCutFill grid rows cols spacing datum).netVol =
      (computeCutFill grid rows cols spacing datum).cutVol -
        (computeCutFill grid rows cols spacing datum).fillVol ∧
    (computeCutFill grid rows cols spacing datum).cutVol =
      ((cellList rows cols).map fun rc =>
        match grid rc.1 rc.2, grid rc.1 (rc.2 + 1), grid (rc.1 + 1) rc.2,
            grid (rc.1 + 1) (rc.2 + 1) with
        | some a, some b, some c, some d =>
            if 0 < (a + b + c + d) / 4 - datum then
              |(a + b + c + d) / 4 - datum| * (spacing * spacing)
            else 0
        | _, _, _, _ => 0).sum ∧
    (computeCutFill grid rows cols spacing datum).fillVol =
      ((cellList rows cols).map fun rc =>
        match grid rc.1 rc.2, grid rc.1 (rc.2 + 1), grid (rc.1 + 1) rc.2,
            grid (rc.1 + 1) (rc.2 + 1) with
        | some a, some b, some c, some d =>
            if 0 < (a + b + c + d) / 4 - datum then 0
            else |(a + b + c + d) / 4 - datum| * (spacing * spacing)
        | _, _, _, _ => 0).sum ∧
    ((∀ r c x, grid r c = some x → datum < x) →
      (computeCutFill grid rows cols spacing datum).fillVol = 0 ∧
      (computeCutFill grid rows cols spacing datum).cutVol =
        ((cellList rows cols).map fun rc =>
          match grid rc.1 rc.2, grid rc.1 (rc.2 + 1), grid (rc.1 + 1) rc.2,
              grid (rc.1 + 1) (rc.2 + 1) with
          | some a, some b, some c, some d =>
              ((a + b + c + d) / 4 - datum) * (spacing * spacing)
          | _, _, _, _ => 0).sum) := by
  have hfold := foldl_pair_sum (cellContrib grid spacing datum)
    (cellList rows cols) (0, 0)
  have hcut : (computeCutFill grid rows cols spacing datum).cutVol =
      ((cellList rows cols).map fun rc =>
        (cellContrib grid spacing datum rc).1).sum := by
    simp only [computeCutFill]
    rw [hfold]
    simp
  have hfill : (computeCutFill grid rows cols spacing datum).fillVol =
      ((cellList rows cols).map fun rc =>
        (cellContrib grid spacing datum rc).2).sum := by
    simp only [computeCutFill]
    rw [hfold]
    simp
  have hnet : (computeCutFill grid rows cols spacing datum).netVol =
      (computeCutFill grid rows cols spacing datum).cutVol -
        (computeCutFill grid rows cols spacing datum).fillVol := rfl
  have hcc : ∀ rc, 0 ≤ (cellContrib grid spacing datum rc).1 ∧
      0 ≤ (cellContrib grid spacing datum rc).2 := by
    intro rc
    unfold cellContrib
    cases grid rc.1 rc.2 <;> cases grid rc.1 (rc.2 + 1) <;>
      cases grid (rc.1 + 1) rc.2 <;> cases grid (rc.1 + 1) (rc.2 + 1) <;>
      dsimp only <;>
      try exact ⟨le_rfl, le_rfl⟩
    constructor <;> split_ifs <;> simp <;>
      exact mul_nonneg (abs_nonneg _) (mul_self_nonneg _)
  refine ⟨?_, ?_, hnet, ?_, ?_, ?_⟩
  · rw [hcut]
    exact List.sum_nonneg (by
      intro x hx
      rw [List.mem_map] at hx
      obtain ⟨rc, _, rfl⟩ := hx
      exact (hcc rc).1)
  · rw [hfill]
    exact List.sum_nonneg (by
      intro x hx
      rw [List.mem_map] at hx
      obtain ⟨rc, _, rfl⟩ := hx
      exact (hcc rc).2)
  · rw [hcut]
    refine congrArg List.sum
      (congrArg (fun f => List.map f (cellList rows cols)) ?_)
    funext rc
    unfold cellContrib
    cases grid rc.1 rc.2 <;> cases grid rc.1 (rc.2 + 1) <;>
      cases grid (rc.1 + 1) rc.2 <;> cases grid (rc.1 + 1) (rc.2 + 1) <;>
      simp <;> split <;> simp
  · rw [hfill]
    refine congrArg List.sum
      (congrArg (fun f => List.map f (cellList rows cols)) ?_)
    funext rc
    unfold cellContrib
    cases grid rc.1 rc.2 <;> cases grid rc.1 (rc.2 + 1) <;>
      cases grid (rc.1 + 1) rc.2 <;> cases grid (rc.1 + 1) (rc.2 + 1) <;>
      simp <;> split <;> simp
  · intro hd
    constructor
    · rw [hfill]
      have hz : ∀ rc ∈ cellList rows cols,
          (cellContrib grid spacing datum rc).2 = 0 := by
        intro rc _
        unfold cellContrib
        cases h00 : grid rc.1 rc.2 with
        | none => simp
        | some a =>
            cases h10 : grid rc.1 (rc.2 + 1) with
            | none => simp
            | some b =>
                cases h01 : grid (rc.1 + 1) rc.2 with
                | none => simp
                | some d =>
                    cases h11 : grid (rc.1 + 1) (rc.2 + 1) with
                    | none => simp
                    | some e =>
                        have ha := hd _ _ _ h00
                        have hb := hd _ _ _ h10
                        have hdd := hd _ _ _ h01
                        have he := hd _ _ _ h11
                        have hpos : 0 < (a + b + d + e) / 4 - datum := by
                          have : 4 * datum < a + b + d + e := by linarith
                          linarith
                        simp [hpos]
      rw [List.sum_eq_zero]
      intro x hx
      rw [List.mem_map] at hx
      obtain ⟨rc, hrc, rfl⟩ := hx
      exact hz rc hrc
    · rw [hcut]
      refine congrArg List.sum
        (congrArg (fun f => List.map f (cellList rows cols)) ?_)
      funext rc
      unfold cellContrib
      cases h00 : grid rc.1 rc.2 with
      | none => simp
      | some a =>
          cases h10 : grid rc.1 (rc.2 + 1) with
          | none => simp
          | some b =>
              cases h01 : grid (rc.1 + 1) rc.2 with
              | none => simp
              | some d =>
                  cases h11 : grid (rc.1 + 1) (rc.2 + 1) with
                  | none => simp
                  | some e =>
                      have ha := hd _ _ _ h00
                      have hb := hd _ _ _ h10
                      have hdd := hd _ _ _ h01
                      have he := hd _ _ _ h11
                      have hpos : 0 < (a + b + d + e) / 4 - datum := by
                        have : 4 * datum < a + b + d + e := by linarith
                        linarith
                      simp [hpos, abs_of_pos hpos]

/-- Witness for C5 on the concrete grid z = row + col with datum -1 and
spacing 1 (datum strictly below all values). -/
theorem computeCutFill_spec_witness :
    (computeCutFill gDiag 2 2 1 (-1)).fillVol = 0 ∧
    (computeCutFill gDiag 2 2 1 (-1)).cutVol =
      ((cellList 2 2).map fun rc =>
        match gDiag rc.1 rc.2, gDiag rc.1 (rc.2 + 1), gDiag (rc.1 + 1) rc.2,
            gDiag (rc.1 + 1) (rc.2 + 1) with
        | some a, some b, some c, some d =>
            ((a + b + c + d) / 4 - (-1)) * ((1 : ℚ) * 1)
        | _, _, _, _ => 0).sum :=
  (computeCutFill_spec gDiag 2 2 1 (-1)).2.2.2.2.2 (by
    intro r c x hx
    have : ((r : ℚ) + (c : ℚ)) = x := by
      simpa [gDiag] using hx
    rw [← this]
    have h0 : (0 : ℚ) ≤ (r : ℚ) + (c : ℚ) := by positivity
    linarith)

/-! ## C6: slope field -/

/-- C6: the slope entry at an in-bounds point is absent exactly when the
point's own elevation is absent or at least one axis produced no derivative;
where present it equals sqrt(dzx^2 + dzy^2) * 100, where each axis
derivative is the central difference (right - left) / (2 * spacing) when
both axis neighbors exist and a one-sided difference over spacing when only
one neighbor exists (with the point itself). -/
theorem computeSlope_spec (grid : ℕ → ℕ → Option ℝ) (rows cols : ℕ)
    (spacing : ℝ) (r c : ℕ) (hr : r < rows) (hc : c < cols) :
    (computeSlope grid rows cols spacing r c = none ↔
      grid r c = none ∨ xDeriv grid cols spacing r c = none ∨
        yDeriv grid rows spacing r c = none) ∧
    (∀ l rt, nbLeft grid r c = some l → nbRight grid cols r c = some rt →
      xDeriv grid cols spacing r c = some ((rt - l) / (2 * spacing))) ∧
    (∀ rt z, nbLeft grid r c = none → nbRight grid cols r c = some rt →
      grid r c = some z →
      xDeriv grid cols spacing r c = some ((rt - z) / spacing)) ∧
    (∀ l z, nbLeft grid r c = some l → nbRight grid cols r c = none →
      grid r c = some z →
      xDeriv grid cols spacing r c = some ((z - l) / spacing)) ∧
    (∀ u d, nbUp grid r c = some u → nbDown grid rows r c = some d →
      yDeriv grid rows spacing r c = some ((d - u) / (2 * spacing))) ∧
    (∀ d z, nbUp grid r c = none → nbDown grid rows r c = some d →
      grid r c = some z →
      yDeriv grid rows spacing r c = some ((d - z) / spacing)) ∧
    (∀ u z, nbUp grid r c = some u → nbDown grid rows r c = none →
      grid r c = some z →
      yDeriv grid rows spacing r c = some ((z - u) / spacing)) ∧
    (∀ v, computeSlope grid rows cols spacing r c = some v →
      ∃ dzx dzy, xDeriv grid cols spacing r c = some dzx ∧
        yDeriv grid rows spacing r c = some dzy ∧
        v = Real.sqrt (dzx * dzx + dzy * dzy) * 100) := by
  refine ⟨?_, ?_, ?_, ?_, ?_, ?_, ?_, ?_⟩
  · unfold computeSlope
    rw [if_pos ⟨hr, hc⟩]
    cases hx : xDeriv grid cols spacing r c <;>
      cases hy : yDeriv grid rows spacing r c <;>
      cases hz : grid r c <;> simp
  · intro l rt hl hrt
    unfold xDeriv
    rw [hl, hrt]
  · intro rt z hl hrt hz
    unfold xDeriv
    rw [hl, hrt, hz]
  · intro l z hl hrt hz
    unfold xDeriv
    rw [hl, hrt, hz]
  · intro u d hu hd
    unfold yDeriv
    rw [hu, hd]
  · intro d z hu hd hz
    unfold yDeriv
    rw [hu, hd, hz]
  · intro u z hu hd hz
    unfold yDeriv
    rw [hu, hd, hz]
  · intro v hv
    unfold computeSlope at hv
    rw [if_pos ⟨hr, hc⟩] at hv
    cases hx : xDeriv grid cols spacing r c with
    | none => rw [hx] at hv; simp at hv
    | some dzx =>
        cases hy : yDeriv grid rows spacing r c with
        | none => rw [hx, hy] at hv; simp at hv
        | some dzy =>
            cases hz : grid r c with
            | none => rw [hx, hy, hz] at hv; simp at hv
            | some z =>
                rw [hx, hy, hz] at hv
                simp only [Option.some_inj] at hv
                exact ⟨dzx, dzy, rfl, rfl, hv.symm⟩

/-- Witness for C6 at the in-bounds point (0,0) of a 2x2 grid. -/
theorem computeSlope_spec_witness :
    (computeSlope gFlatR 2 2 1 0 0 = none ↔
      gFlatR 0 0 = none ∨ xDeriv gFlatR 2 1 0 0 = none ∨
        yDeriv gFlatR 2 1 0 0 = none) ∧
    (∀ l rt, nbLeft gFlatR 0 0 = some l → nbRight gFlatR 2 0 0 = some rt →
      xDeriv gFlatR 2 1 0 0 = some ((rt - l) / (2 * 1))) ∧
    (∀ rt z, nbLeft gFlatR 0 0 = none → nbRight gFlatR 2 0 0 = some rt →
      gFlatR 0 0 = some z →
      xDeriv gFlatR 2 1 0 0 = some ((rt - z) / 1)) ∧
    (∀ l z, nbLeft gFlatR 0 0 = some l → nbRight gFlatR 2 0 0 = none →
      gFlatR 0 0 = some z →
      xDeriv gFlatR 2 1 0 0 = some ((z - l) / 1)) ∧
    (∀ u d, nbUp gFlatR 0 0 = some u → nbDown gFlatR 2 0 0 = some d →
      yDeriv gFlatR 2 1 0 0 = some ((d - u) / (2 * 1))) ∧
    (∀ d z, nbUp gFlatR 0 0 = none → nbDown gFlatR 2 0 0 = some d →
      gFlatR 0 0 = some z →
      yDeriv gFlatR 2 1 0 0 = some ((d - z) / 1)) ∧
    (∀ u z, nbUp gFlatR 0 0 = some u → nbDown gFlatR 2 0 0 = none →
      gFlatR 0 0 = some z →
      yDeriv gFlatR 2 1 0 0 = some ((z - u) / 1)) ∧
    (∀ v, computeSlope gFlatR 2 2 1 0 0 = some v →
      ∃ dzx dzy, xDeriv gFlatR 2 1 0 0 = some dzx ∧
        yDeriv gFlatR 2 1 0 0 = some dzy ∧
        v = Real.sqrt (dzx * dzx + dzy * dzy) * 100) :=
  computeSlope_spec gFlatR 2 2 1 0 0 (by norm_num) (by norm_num)

/-! ## C7: flow direction -/

/-- The steepest-descent fold either keeps its accumulator (when no drop
strictly beats it) or returns the first list entry attaining the maximal
drop among those beating the accumulator. -/
theorem foldl_bestStep_spec :
    ∀ (l : List ((ℤ × ℤ) × ℝ)) (acc : ℝ × ℤ × ℤ),
      (l.foldl bestStep acc = acc ∧ ∀ x ∈ l, x.2 ≤ acc.1) ∨
      (∃ pre x post, l = pre ++ x :: post ∧
        l.foldl bestStep acc = (x.2, x.1.1, x.1.2) ∧
        acc.1 < x.2 ∧ (∀ y ∈ l, y.2 ≤ x.2) ∧ (∀ y ∈ pre, y.2 < x.2)) := by
  intro l
  induction l with
  | nil => intro acc; left; exact ⟨rfl, by simp⟩
  | cons z l ih =>
      intro acc
      by_cases hz : acc.1 < z.2
      · have hstep : bestStep acc z = (z.2, z.1.1, z.1.2) := by
          unfold bestStep
          rw [if_pos hz]
        rcases ih (z.2, z.1.1, z.1.2) with ⟨heq, hall⟩ |
            ⟨pre, x, post, hl, heq, hgt, hall, hpre⟩
        · right
          refine ⟨[], z, l, by simp, ?_, hz, ?_, by simp⟩
          · rw [List.foldl_cons, hstep, heq]
          · intro y hy
            rcases List.mem_cons.mp hy with rfl | hy
            · exact le_refl _
            · exact hall y hy
        · right
          refine ⟨z :: pre, x, post, by simp [hl], ?_, ?_, ?_, ?_⟩
          · rw [List.foldl_cons, hstep, heq]
          · exact lt_trans hz hgt
          · intro y hy
            rcases List.mem_cons.mp hy with rfl | hy
            · exact le_of_lt hgt
            · exact hall y hy
          · intro y hy
            rcases List.mem_cons.mp hy with rfl | hy
            · exact hgt
            · exact hpre y hy
      · have hstep : bestStep acc z = acc := by
          unfold bestStep
          rw [if_neg hz]
        rcases ih acc with ⟨heq, hall⟩ |
            ⟨pre, x, post, hl, heq, hgt, hall, hpre⟩
        · left
          refine ⟨by rw [List.foldl_cons, hstep, heq], ?_⟩
          intro y hy
          rcases List.mem_cons.mp hy with rfl | hy
          · exact not_lt.mp hz
          · exact hall y hy
        · right
          refine ⟨z :: pre, x, post, by simp [hl], ?_, hgt, ?_, ?_⟩
          · rw [List.foldl_cons, hstep, heq]
          · intro y hy
            rcases List.mem_cons.mp hy with rfl | hy
            · exact le_trans (not_lt.mp hz) (le_of_lt hgt)
            · exact hall y hy
          · intro y hy
            rcases List.mem_cons.mp hy with rfl | hy
            · exact lt_of_le_of_lt (not_lt.mp hz) hgt
            · exact hpre y hy

/-- C7: the flow entry at an in-bounds point is absent exactly when the
point's elevation is absent or no in-bounds valid neighbor has strictly
positive drop; where present, it equals atan2(dRow, dCol) of the neighbor
maximizing the drop, ties resolved to the first neighbor in scan order
(the chosen entry is the first of the scan-ordered neighbor list whose drop
attains the maximum, which is strictly positive). -/
theorem computeFlowDirection_spec (grid : ℕ → ℕ → Option ℝ)
    (rows cols : ℕ) (spacing : ℝ) (r c : ℕ)
    (hr : r < rows) (hc : c < cols) (hs : 0 < spacing) :
    (computeFlowDirection grid rows cols spacing r c = none ↔
      grid r c = none ∨ ∃ z, grid r c = some z ∧
        ∀ x ∈ neighborDrops grid rows cols spacing r c z, x.2 ≤ 0) ∧
    (∀ θ, computeFlowDirection grid rows cols spacing r c = some θ →
      ∃ z, grid r c = some z ∧
      ∃ pre x post,
        neighborDrops grid rows cols spacing r c z = pre ++ x :: post ∧
        0 < x.2 ∧
        (∀ y ∈ neighborDrops grid rows cols spacing r c z, y.2 ≤ x.2) ∧
        (∀ y ∈ pre, y.2 < x.2) ∧
        θ = atan2 (x.1.1 : ℝ) (x.1.2 : ℝ)) := by
  constructor
  · unfold computeFlowDirection
    rw [if_pos ⟨hr, hc⟩]
    cases hz : grid r c with
    | none => simp
    | some z =>
        simp only [Option.some.injEq]
        rcases foldl_bestStep_spec
            (neighborDrops grid rows cols spacing r c z) (0, 0, 0) with
          ⟨heq, hall⟩ | ⟨pre, x, post, hl, heq, hgt, hall, hpre⟩
        · rw [heq]
          simp only [lt_irrefl, if_false]
          constructor
          · intro _
            exact Or.inr ⟨z, rfl, fun x hx => hall x hx⟩
          · intro _
            trivial
        · rw [heq]
          have hx2 : (0 : ℝ) < x.2 := hgt
          rw [if_pos hx2]
          constructor
          · intro h
            exact absurd h (by simp)
          · rintro (h | ⟨z2, hz2, hle⟩)
            · exact absurd h (by simp)
            · have : x ∈ neighborDrops grid rows cols spacing r c z := by
                rw [hl]
                simp
              cases hz2
              exact absurd (hle x this) (not_le.mpr hx2)
  · intro θ hθ
    unfold computeFlowDirection at hθ
    rw [if_pos ⟨hr, hc⟩] at hθ
    cases hz : grid r c with
    | none => rw [hz] at hθ; simp at hθ
    | some z =>
        rw [hz] at hθ
        simp only at hθ
        rcases foldl_bestStep_spec
            (neighborDrops grid rows cols spacing r c z) (0, 0, 0) with
          ⟨heq, hall⟩ | ⟨pre, x, post, hl, heq, hgt, hall, hpre⟩
        · rw [heq] at hθ
          simp at hθ
        · rw [heq] at hθ
          have hx2 : (0 : ℝ) < x.2 := hgt
          rw [if_pos hx2] at hθ
          simp only [Option.some.injEq] at hθ
          exact ⟨z, rfl, pre, x, post, hl, hx2, hall, hpre, hθ.symm⟩

/-- Witness for C7 at the point (0,0) of the 1x2 descending grid. -/
theorem computeFlowDirection_spec_witness :
    (computeFlowDirection gStep 1 2 1 0 0 = none ↔
      gStep 0 0 = none ∨ ∃ z, gStep 0 0 = some z ∧
        ∀ x ∈ neighborDrops gStep 1 2 1 0 0 z, x.2 ≤ 0) ∧
    (∀ θ, computeFlowDirection gStep 1 2 1 0 0 = some θ →
      ∃ z, gStep 0 0 = some z ∧
      ∃ pre x post,
        neighborDrops gStep 1 2 1 0 0 z = pre ++ x :: post ∧
        0 < x.2 ∧
        (∀ y ∈ neighborDrops gStep 1 2 1 0 0 z, y.2 ≤ x.2) ∧
        (∀ y ∈ pre, y.2 < x.2) ∧
        θ = atan2 (x.1.1 : ℝ) (x.1.2 : ℝ)) :=
  computeFlowDirection_spec gStep 1 2 1 0 0 (by norm_num) (by norm_num)
    (by norm_num)

/-! ## C2: the 3x3 flow scenario -/

theorem sqrt_two_gt_one : (1 : ℝ) < Real.sqrt 2 := by
  rw [show (1 : ℝ) = Real.sqrt 1 from (Real.sqrt_one).symm]
  exact Real.sqrt_lt_sqrt (by norm_num) (by norm_num)

theorem diag_drop_pos : (0 : ℝ) < 5 / Real.sqrt 2 := by
  have h : (0 : ℝ) < Real.sqrt 2 := lt_trans one_pos sqrt_two_gt_one
  positivity

theorem diag_drop_lt : (5 : ℝ) / Real.sqrt 2 < 5 :=
  div_lt_self (by norm_num) sqrt_two_gt_one

/-- The neighbor scan of the center of the peak grid, with its drops: the
diagonals drop 5/sqrt 2, the orthogonals drop 5. -/
theorem gPeak_drops :
    neighborDrops gPeak 3 3 1 1 1 15 =
      [((-1, -1), 5 / Real.sqrt 2), ((-1, 0), 5), ((-1, 1), 5 / Real.sqrt 2),
       ((0, -1), 5), ((0, 1), 5), ((1, -1), 5 / Real.sqrt 2),
       ((1, 0), 5), ((1, 1), 5 / Real.sqrt 2)] := by
  unfold neighborDrops flowOffsets gPeak
  norm_num [List.filterMap_cons, Real.sqrt_one,
    show Int.toNat 2 = 2 from rfl, show Int.toNat 0 = 0 from rfl,
    show Int.toNat 1 = 1 from rfl]

/-- The steepest-descent scan at the center of the peak grid returns drop 5
with offset (-1, 0): the diagonal (-1,-1) is scanned first but its drop
5/sqrt 2 is smaller, and later drops of 5 do not strictly improve. -/
theorem gPeak_best :
    (neighborDrops gPeak 3 3 1 1 1 15).foldl bestStep (0, 0, 0) =
      (5, -1, 0) := by
  rw [gPeak_drops]
  have s1 : bestStep (0, 0, 0) ((-1, -1), 5 / Real.sqrt 2) =
      (5 / Real.sqrt 2, -1, -1) := by
    unfold bestStep
    rw [if_pos diag_drop_pos]
  have s2 : bestStep (5 / Real.sqrt 2, -1, -1) ((-1, 0), 5) =
      (5, -1, 0) := by
    unfold bestStep
    rw [if_pos diag_drop_lt]
  have s3 : ∀ d : ℤ × ℤ, bestStep (5, -1, 0) (d, 5 / Real.sqrt 2) =
      (5, -1, 0) := by
    intro d
    unfold bestStep
    rw [if_neg (not_lt.mpr (le_of_lt diag_drop_lt))]
  have s4 : ∀ d : ℤ × ℤ, bestStep (5, -1, 0) (d, 5) = (5, -1, 0) := by
    intro d
    unfold bestStep
    rw [if_neg (lt_irrefl (5 : ℝ))]
  simp only [List.foldl_cons, List.foldl_nil, s1, s2, s3, s4]

/-- computeFlowDirection at the center of the peak grid. -/
theorem gPeak_flow :
    computeFlowDirection gPeak 3 3 1 1 1 = some (atan2 (-1) 0) := by
  unfold computeFlowDirection
  rw [if_pos (by norm_num : (1 : ℕ) < 3 ∧ (1 : ℕ) < 3)]
  have hp : gPeak 1 1 = some 15 := by simp [gPeak]
  rw [hp]
  simp only [gPeak_best]
  rw [if_pos (by norm_num : (0 : ℝ) < (5, (-1 : ℤ), (0 : ℤ)).1)]
  norm_num

theorem atan2_neg_one_zero : atan2 (-1) 0 = -(Real.pi / 2) := by
  unfold atan2
  norm_num

theorem atan2_neg_one_neg_one :
    atan2 (-1) (-1) = Real.arctan 1 - Real.pi := by
  unfold atan2
  norm_num

/-- C2 counterexample: on the grid [[10,10,10],[10,15,10],[10,10,10]] with
spacing 1, computeFlowDirection at the center stores atan2(-1, 0), which
differs from the claimed atan2(-1, -1): the diagonal (-1,-1) only has drop
5/sqrt 2, so the first neighbor with the maximal drop 5 is the offset
(-1, 0), not (-1, -1). -/
theorem flow_center_tiebreak_counterexample :
    computeFlowDirection gPeak 3 3 1 1 1 = some (atan2 (-1) 0) ∧
    atan2 (-1) 0 ≠ atan2 (-1) (-1) := by
  refine ⟨gPeak_flow, ?_⟩
  rw [atan2_neg_one_zero, atan2_neg_one_neg_one, Real.arctan_one]
  intro h
  have hpi := Real.pi_pos
  linarith

/-- C2 amended: on the 3x3 grid [[10,10,10],[10,15,10],[10,10,10]] with
spacing 1, computeFlowDirection at the center is not absent: it selects a
neighbor with drop 5, namely the offset (-1, 0) — the first scanned among
the drop-5 neighbors, since the earlier-scanned diagonal (-1,-1) has the
smaller drop 5/sqrt 2 — and the stored direction equals atan2(-1, 0). -/
theorem flow_center_scenario :
    (5 : ℝ) / Real.sqrt 2 < 5 ∧
    (neighborDrops gPeak 3 3 1 1 1 15).foldl bestStep (0, 0, 0) =
      (5, -1, 0) ∧
    computeFlowDirection gPeak 3 3 1 1 1 = some (atan2 (-1) 0) :=
  ⟨diag_drop_lt, gPeak_best, gPeak_flow⟩

/-! ## C10: segments stay inside their cell -/

/-- If a level separates the two endpoint values of an edge (their at-or-above
classifications differ), the interpolation denominator is nonzero and the
fraction lies in [0, 1]. -/
theorem interp_bounds {a b level : ℚ}
    (h : decide (level ≤ a) ≠ decide (level ≤ b)) :
    b - a ≠ 0 ∧ 0 ≤ (level - a) / (b - a) ∧ (level - a) / (b - a) ≤ 1 := by
  by_cases ha : level ≤ a
  · have hb : ¬ level ≤ b := by
      intro hb
      exact h (by simp [ha, hb])
    have hb' : b < level := not_le.mp hb
    have hba : b - a < 0 := by linarith
    refine ⟨ne_of_lt hba, ?_, ?_⟩
    · rw [le_div_iff_of_neg hba]
      linarith
    · rw [div_le_iff_of_neg hba]
      linarith
  · have hb : level ≤ b := by
      by_contra hb
      exact h (by simp [ha, hb])
    have ha' : a < level := not_le.mp ha
    have hba : 0 < b - a := by linarith
    refine ⟨ne_of_gt hba, ?_, ?_⟩
    · apply div_nonneg <;> linarith
    · rw [div_le_one hba]
      linarith

/-- An edge whose corner classifications differ has a well-defined
interpolated midpoint with both cell-local coordinates in [0, 1]. -/
theorem edgeMidpoint_bounds {e : ℕ} (he : e < 4) {v00 v10 v01 v11 level : ℚ}
    (hstr :
      (edgeBits (decide (level ≤ v00)) (decide (level ≤ v10))
        (decide (level ≤ v11)) (decide (level ≤ v01)) e).1 ≠
      (edgeBits (decide (level ≤ v00)) (decide (level ≤ v10))
        (decide (level ≤ v11)) (decide (level ≤ v01)) e).2) :
    ∃ p, edgeMidpoint e v00 v10 v01 v11 level = some p ∧
      0 ≤ p.1 ∧ p.1 ≤ 1 ∧ 0 ≤ p.2 ∧ p.2 ≤ 1 := by
  interval_cases e
  · obtain ⟨hne, h0, h1⟩ := interp_bounds (a := v00) (b := v10) hstr
    refine ⟨((level - v00) / (v10 - v00), 0), ?_, h0, h1, ?_, ?_⟩
    · unfold edgeMidpoint
      rw [if_neg hne]
    · norm_num
    · norm_num
  · obtain ⟨hne, h0, h1⟩ := interp_bounds (a := v10) (b := v11) hstr
    refine ⟨(1, (level - v10) / (v11 - v10)), ?_, ?_, ?_, h0, h1⟩
    · unfold edgeMidpoint
      rw [if_neg hne]
    · norm_num
    · norm_num
  · obtain ⟨hne, h0, h1⟩ := interp_bounds (a := v01) (b := v11) hstr
    refine ⟨((level - v01) / (v11 - v01), 1), ?_, h0, h1, ?_, ?_⟩
    · unfold edgeMidpoint
      rw [if_neg hne]
    · norm_num
    · norm_num
  · obtain ⟨hne, h0, h1⟩ := interp_bounds (a := v00) (b := v01) hstr
    refine ⟨(0, (level - v00) / (v01 - v00)), ?_, ?_, ?_, h0, h1⟩
    · unfold edgeMidpoint
      rw [if_neg hne]
    · norm_num
    · norm_num

/-- Every segment of a cell has all coordinates inside the unit cell at
(r, c). -/
theorem cellSegs_bounds {v00 v10 v01 v11 level : ℚ} {r c : ℕ} {s : Seg}
    (hs : s ∈ cellSegs v00 v10 v01 v11 level r c) :
    (c : ℚ) ≤ s.x1 ∧ s.x1 ≤ (c : ℚ) + 1 ∧
    (c : ℚ) ≤ s.x2 ∧ s.x2 ≤ (c : ℚ) + 1 ∧
    (r : ℚ) ≤ s.y1 ∧ s.y1 ≤ (r : ℚ) + 1 ∧
    (r : ℚ) ≤ s.y2 ∧ s.y2 ≤ (r : ℚ) + 1 := by
  unfold cellSegs at hs
  rw [List.mem_filterMap] at hs
  obtain ⟨e, he, hfe⟩ := hs
  have hstr := msSegments_straddle (decide (level ≤ v00))
    (decide (level ≤ v10)) (decide (level ≤ v11)) (decide (level ≤ v01))
    e (by exact he)
  have helt := msSegments_edge_lt (decide (level ≤ v00))
    (decide (level ≤ v10)) (decide (level ≤ v11)) (decide (level ≤ v01))
    e (by exact he)
  obtain ⟨p1, hp1, h1a, h1b, h1c, h1d⟩ :=
    edgeMidpoint_bounds helt.1 hstr.1
  obtain ⟨p2, hp2, h2a, h2b, h2c, h2d⟩ :=
    edgeMidpoint_bounds helt.2 hstr.2
  rw [hp1, hp2] at hfe
  simp only [Option.some.injEq] at hfe
  rw [← hfe]
  dsimp only
  refine ⟨by linarith, by linarith, by linarith, by linarith,
    by linarith, by linarith, by linarith, by linarith⟩

/-- Membership in computeSegments comes from one complete cell. -/
theorem computeSegments_mem {grid : ℕ → ℕ → Option ℚ} {rows cols : ℕ}
    {level : ℚ} {s : Seg} (hs : s ∈ computeSegments grid rows cols level) :
    ∃ r c, r < rows - 1 ∧ c < cols - 1 ∧ ∃ v00 v10 v01 v11,
      grid r c = some v00 ∧ grid r (c + 1) = some v10 ∧
      grid (r + 1) c = some v01 ∧ grid (r + 1) (c + 1) = some v11 ∧
      s ∈ cellSegs v00 v10 v01 v11 level r c := by
  unfold computeSegments at hs
  rw [List.mem_flatMap] at hs
  obtain ⟨r, hr, hs⟩ := hs
  rw [List.mem_range] at hr
  rw [List.mem_flatMap] at hs
  obtain ⟨c, hc, hs⟩ := hs
  rw [List.mem_range] at hc
  refine ⟨r, c, hr, hc, ?_⟩
  cases h00 : grid r c with
  | none => rw [h00] at hs; simp at hs
  | some v00 =>
      cases h10 : grid r (c + 1) with
      | none => rw [h00, h10] at hs; simp at hs
      | some v10 =>
          cases h01 : grid (r + 1) c with
          | none => rw [h00, h10, h01] at hs; simp at hs
          | some v01 =>
              cases h11 : grid (r + 1) (c + 1) with
              | none => rw [h00, h10, h01, h11] at hs; simp at hs
              | some v11 =>
                  rw [h00, h10, h01, h11] at hs
                  exact ⟨v00, v10, v01, v11, rfl, rfl, rfl, rfl, hs⟩

/-- C10: every segment returned by computeSegments lies inside its
originating cell: there are r < rows-1, c < cols-1 with both x coordinates
in [c, c+1] and both y coordinates in [r, r+1], hence inside
[0, cols-1] x [0, rows-1].  (In this model a kept segment's coordinates are
rationals by construction — the JavaScript isFinite filter corresponds to
the some-case of edgeMidpoint, whose interpolation fraction the proof shows
lies in [0, 1].) -/
theorem computeSegments_in_bounds (grid : ℕ → ℕ → Option ℚ)
    (rows cols : ℕ) (level : ℚ) (s : Seg)
    (hs : s ∈ computeSegments grid rows cols level) :
    (∃ r c, r < rows - 1 ∧ c < cols - 1 ∧
      (c : ℚ) ≤ s.x1 ∧ s.x1 ≤ (c : ℚ) + 1 ∧
      (c : ℚ) ≤ s.x2 ∧ s.x2 ≤ (c : ℚ) + 1 ∧
      (r : ℚ) ≤ s.y1 ∧ s.y1 ≤ (r : ℚ) + 1 ∧
      (r : ℚ) ≤ s.y2 ∧ s.y2 ≤ (r : ℚ) + 1) ∧
    0 ≤ s.x1 ∧ s.x1 ≤ (cols : ℚ) - 1 ∧ 0 ≤ s.x2 ∧ s.x2 ≤ (cols : ℚ) - 1 ∧
    0 ≤ s.y1 ∧ s.y1 ≤ (rows : ℚ) - 1 ∧ 0 ≤ s.y2 ∧ s.y2 ≤ (rows : ℚ) - 1 := by
  obtain ⟨r, c, hr, hc, v00, v10, v01, v11, _, _, _, _, hmem⟩ :=
    computeSegments_mem hs
  obtain ⟨hx1a, hx1b, hx2a, hx2b, hy1a, hy1b, hy2a, hy2b⟩ :=
    cellSegs_bounds hmem
  have hcq : (c : ℚ) + 1 ≤ (cols : ℚ) - 1 := by
    have h1 : c + 1 ≤ cols - 1 := hc
    have h2 : 1 ≤ cols := by omega
    have h3 : (c : ℚ) + 1 ≤ ((cols - 1 : ℕ) : ℚ) := by
      exact_mod_cast h1
    rwa [Nat.cast_sub h2] at h3
  have hrq : (r : ℚ) + 1 ≤ (rows : ℚ) - 1 := by
    have h1 : r + 1 ≤ rows - 1 := hr
    have h2 : 1 ≤ rows := by omega
    have h3 : (r : ℚ) + 1 ≤ ((rows - 1 : ℕ) : ℚ) := by
      exact_mod_cast h1
    rwa [Nat.cast_sub h2] at h3
  have hc0 : (0 : ℚ) ≤ c := Nat.cast_nonneg c
  have hr0 : (0 : ℚ) ≤ r := Nat.cast_nonneg r
  exact ⟨⟨r, c, hr, hc, hx1a, hx1b, hx2a, hx2b, hy1a, hy1b, hy2a, hy2b⟩,
    by linarith, by linarith, by linarith, by linarith,
    by linarith, by linarith, by linarith, by linarith⟩

/-- Witness for C10: the single segment produced by the planar grid
z = row + col on a 2x2 grid at level 1. -/
theorem computeSegments_in_bounds_witness :
    (∃ r c : ℕ, r < 2 - 1 ∧ c < 2 - 1 ∧
      (c : ℚ) ≤ (⟨0, 1, 1, 0⟩ : Seg).x1 ∧
      (⟨0, 1, 1, 0⟩ : Seg).x1 ≤ (c : ℚ) + 1 ∧
      (c : ℚ) ≤ (⟨0, 1, 1, 0⟩ : Seg).x2 ∧
      (⟨0, 1, 1, 0⟩ : Seg).x2 ≤ (c : ℚ) + 1 ∧
      (r : ℚ) ≤ (⟨0, 1, 1, 0⟩ : Seg).y1 ∧
      (⟨0, 1, 1, 0⟩ : Seg).y1 ≤ (r : ℚ) + 1 ∧
      (r : ℚ) ≤ (⟨0, 1, 1, 0⟩ : Seg).y2 ∧
      (⟨0, 1, 1, 0⟩ : Seg).y2 ≤ (r : ℚ) + 1) ∧
    0 ≤ (⟨0, 1, 1, 0⟩ : Seg).x1 ∧
    (⟨0, 1, 1, 0⟩ : Seg).x1 ≤ ((2 : ℕ) : ℚ) - 1 ∧
    0 ≤ (⟨0, 1, 1, 0⟩ : Seg).x2 ∧
    (⟨0, 1, 1, 0⟩ : Seg).x2 ≤ ((2 : ℕ) : ℚ) - 1 ∧
    0 ≤ (⟨0, 1, 1, 0⟩ : Seg).y1 ∧
    (⟨0, 1, 1, 0⟩ : Seg).y1 ≤ ((2 : ℕ) : ℚ) - 1 ∧
    0 ≤ (⟨0, 1, 1, 0⟩ : Seg).y2 ∧
    (⟨0, 1, 1, 0⟩ : Seg).y2 ≤ ((2 : ℕ) : ℚ) - 1 := by
  have hmem : (⟨0, 1, 1, 0⟩ : Seg) ∈ computeSegments gDiag 2 2 1 := by
    norm_num [computeSegments, gDiag, cellSegs, cellIdx, toIdx, msSegments,
      edgeMidpoint, List.range_succ, List.filterMap_cons]
  exact computeSegments_in_bounds gDiag 2 2 1 ⟨0, 1, 1, 0⟩ hmem

/-! ## C9: re-merging a merged polyline -/

theorem decompose_length (pts : Polyline) :
    (decompose pts).length = pts.length - 1 := by
  unfold decompose
  rw [List.length_map, List.length_zip, List.length_tail]
  exact min_eq_right (Nat.sub_le _ _)

theorem decompose_getD {pts : Polyline} {m : ℕ} (h2 : m + 1 < pts.length) :
    (decompose pts).getD m dummySeg =
      ⟨(pts.getD m (0, 0)).1, (pts.getD m (0, 0)).2,
       (pts.getD (m + 1) (0, 0)).1, (pts.getD (m + 1) (0, 0)).2⟩ := by
  have h1 : m < pts.length := by omega
  have ht : m < pts.tail.length := by
    rw [List.length_tail]
    omega
  have hz : m < (pts.zip pts.tail).length := by
    rw [List.length_zip, List.length_tail]
    omega
  have hd : m < (decompose pts).length := by
    rw [decompose_length]
    omega
  rw [List.getD_eq_getElem _ _ hd, List.getD_eq_getElem _ _ h1,
    List.getD_eq_getElem _ _ h2]
  unfold decompose
  rw [List.getElem_map, List.getElem_zip, List.getElem_tail]

theorem take_concat_getD {pts : Polyline} {m : ℕ} (h : m < pts.length) :
    pts.take (m + 1) = pts.take m ++ [pts.getD m (0, 0)] := by
  rw [List.take_succ, List.getElem?_eq_getElem h,
    List.getD_eq_getElem _ _ h]
  rfl

theorem take_getLast {pts : Polyline} {m : ℕ} (h : m < pts.length) :
    (pts.take (m + 1)).getLast? = some (pts.getD m (0, 0)) := by
  rw [take_concat_getD h, List.getLast?_concat]

theorem adjFrom_mem {tol : ℚ} {k : ℚ × ℚ} :
    ∀ (l : List Seg) (i : ℕ) (e : ℕ × Bool), e ∈ adjFrom tol k i l →
      i ≤ e.1 ∧ e.1 < i + l.length := by
  intro l
  induction l with
  | nil => intro i e he; simp [adjFrom] at he
  | cons s rest ih =>
      intro i e he
      unfold adjFrom at he
      rw [List.mem_append, List.mem_append] at he
      rcases he with (he | he) | he
      · split at he
        · simp only [List.mem_singleton] at he
          subst he
          exact ⟨le_rfl, Nat.lt_add_of_pos_right (by simp)⟩
        · simp at he
      · split at he
        · simp only [List.mem_singleton] at he
          subst he
          exact ⟨le_rfl, Nat.lt_add_of_pos_right (by simp)⟩
        · simp at he
      · have := ih (i + 1) e he
        constructor
        · omega
        · simp only [List.length_cons]
          omega

theorem adjFrom_find_none (tol : ℚ) (k : ℚ × ℚ) (used : Finset ℕ)
    (l : List Seg) (i : ℕ)
    (h : ∀ j, i ≤ j → j < i + l.length → j ∈ used) :
    (adjFrom tol k i l).find? (fun e => decide (e.1 ∉ used)) = none := by
  rw [List.find?_eq_none]
  intro e he
  have hm := adjFrom_mem l i e he
  simp only [decide_eq_true_eq, not_not]
  exact h e.1 hm.1 hm.2

theorem adjFrom_find_first (tol : ℚ) (k : ℚ × ℚ) (used : Finset ℕ) :
    ∀ (l : List Seg) (i m : ℕ), m < l.length →
      (∀ j, j < i + m → j ∈ used) → (i + m) ∉ used →
      segKey tol ((l.getD m dummySeg).x1) ((l.getD m dummySeg).y1) = k →
      (adjFrom tol k i l).find? (fun e => decide (e.1 ∉ used)) =
        some (i + m, false) := by
  intro l
  induction l with
  | nil => intro i m hm; simp at hm
  | cons s rest ih =>
      intro i m hm hlt hni hkey
      unfold adjFrom
      cases m with
      | zero =>
          have hkey1 : segKey tol s.x1 s.y1 = k := by simpa using hkey
          rw [if_pos hkey1]
          have : ((i, false) :: ((if segKey tol s.x2 s.y2 = k then
              [(i, true)] else []) ++ adjFrom tol k (i + 1) rest)).find?
                (fun e => decide (e.1 ∉ used)) = some (i, false) := by
            apply List.find?_cons_of_pos
            simp only [decide_eq_true_eq]
            simpa using hni
          simpa using this
      | succ m1 =>
          have hi : i ∈ used := hlt i (by omega)
          have hrest : (adjFrom tol k (i + 1) rest).find?
              (fun e => decide (e.1 ∉ used)) = some ((i + 1) + m1, false) := by
            apply ih (i + 1) m1 (by simpa using hm)
            · intro j hj
              exact hlt j (by omega)
            · have : i + 1 + m1 = i + (m1 + 1) := by omega
              rw [this]
              exact hni
            · simpa using hkey
          have hres : (i + 1) + m1 = i + (m1 + 1) := by omega
          rw [List.find?_append, List.find?_append]
          have h1 : (if segKey tol s.x1 s.y1 = k then [(i, false)]
              else []).find? (fun e => decide (e.1 ∉ used)) = none := by
            split
            · apply List.find?_cons_of_neg
              simp [hi]
            · rfl
          have h2 : (if segKey tol s.x2 s.y2 = k then [(i, true)]
              else []).find? (fun e => decide (e.1 ∉ used)) = none := by
            split
            · apply List.find?_cons_of_neg
              simp [hi]
            · rfl
          rw [h1, h2, hrest, hres]
          rfl

/-- Forward extension on the decomposition of a polyline: having consumed
segments 0..k and rebuilt the first k+2 points, the loop consumes the
remaining segments in order and rebuilds the whole polyline. -/
theorem extendF_decompose (pts : Polyline) (tol : ℚ)
    (hlen : 2 ≤ pts.length) :
    ∀ (fuel k : ℕ), k + 1 ≤ pts.length - 1 →
      pts.length - 1 - k ≤ fuel →
      extendF (decompose pts) tol fuel (Finset.range (k + 1))
        (pts.take (k + 2)) = (Finset.range (pts.length - 1), pts) := by
  intro fuel
  induction fuel with
  | zero =>
      intro k h1 h2
      exfalso
      omega
  | succ f ih =>
      intro k h1 h2
      have hk2 : k + 1 < pts.length := by omega
      have hget : (pts.take (k + 2)).getLast? =
          some (pts.getD (k + 1) (0, 0)) := take_getLast hk2
      simp only [extendF]
      rw [hget]
      dsimp only
      by_cases hk : k + 1 < pts.length - 1
      · have hseg : (decompose pts).getD (k + 1) dummySeg =
            ⟨(pts.getD (k + 1) (0, 0)).1, (pts.getD (k + 1) (0, 0)).2,
             (pts.getD (k + 2) (0, 0)).1, (pts.getD (k + 2) (0, 0)).2⟩ :=
          decompose_getD (by omega)
        have hfind := adjFrom_find_first tol
          (segKey tol (pts.getD (k + 1) (0, 0)).1
            (pts.getD (k + 1) (0, 0)).2)
          (Finset.range (k + 1)) (decompose pts) 0 (k + 1)
          (by rw [decompose_length]; omega)
          (fun j hj => Finset.mem_range.mpr (by omega))
          (by simp)
          (by rw [hseg])
        simp only [Nat.zero_add] at hfind
        unfold adjAt
        rw [hfind]
        dsimp only
        rw [hseg]
        dsimp only
        simp only [Bool.false_eq_true, if_false, Prod.mk.eta]
        rw [← take_concat_getD (by omega : k + 2 < pts.length)]
        rw [← Finset.range_succ]
        have hres := ih (k + 1) (by omega) (by omega)
        convert hres using 3
        all_goals omega
      · have hn : k + 1 = pts.length - 1 := by omega
        have hfind := adjFrom_find_none tol
          (segKey tol (pts.getD (k + 1) (0, 0)).1
            (pts.getD (k + 1) (0, 0)).2)
          (Finset.range (k + 1)) (decompose pts) 0
          (fun j hj1 hj2 => Finset.mem_range.mpr (by
            rw [decompose_length] at hj2
            omega))
        unfold adjAt
        rw [hfind]
        have htake : pts.take (k + 2) = pts :=
          List.take_of_length_le (by omega)
        rw [htake, hn]

/-- The backward extension loop does nothing when every segment is already
used. -/
theorem extendB_all_used (segs : List Seg) (tol : ℚ) (used : Finset ℕ)
    (hused : ∀ j, j < segs.length → j ∈ used) :
    ∀ fuel pts, extendB segs tol fuel used pts = (used, pts) := by
  intro fuel pts
  cases fuel with
  | zero => rfl
  | succ f =>
      simp only [extendB]
      cases hh : pts.head? with
      | none => rfl
      | some p =>
          dsimp only
          unfold adjAt
          rw [adjFrom_find_none tol (segKey tol p.1 p.2) used segs 0
            (fun j hj1 hj2 => hused j (by omega))]

/-- The outer merge loop emits nothing when every segment is already used. -/
theorem mergeFrom_all_used (segs : List Seg) (tol : ℚ) (used : Finset ℕ)
    (hused : ∀ j, j < segs.length → j ∈ used) :
    ∀ fuel i, mergeFrom segs tol fuel i used = [] := by
  intro fuel
  induction fuel with
  | zero => intro i; rfl
  | succ f ih =>
      intro i
      simp only [mergeFrom]
      by_cases hi : i < segs.length
      · rw [if_pos hi, if_pos (hused i hi)]
        exact ih (i + 1)
      · rw [if_neg hi]

/-- The first two points of a polyline with at least two points. -/
theorem take_two {pts : Polyline} (hlen : 2 ≤ pts.length) :
    pts.take 2 = [pts.getD 0 (0, 0), pts.getD 1 (0, 0)] := by
  have h0 : 0 < pts.length := by omega
  have h1 : 1 < pts.length := by omega
  have e1 : pts.take 1 = [pts.getD 0 (0, 0)] := by
    have := take_concat_getD h0
    simpa using this
  have := take_concat_getD h1
  rw [this, e1]
  rfl

/-- Re-merging the decomposition of any polyline with at least two points
yields exactly that polyline. -/
theorem mergeSegments_remerge (pts : Polyline) (hlen : 2 ≤ pts.length)
    (tol : ℚ) : mergeSegments (decompose pts) tol = [pts] := by
  have hdlen : (decompose pts).length = pts.length - 1 :=
    decompose_length pts
  obtain ⟨n0, hn0⟩ : ∃ n0, (decompose pts).length = n0 + 1 :=
    ⟨pts.length - 2, by omega⟩
  have hne : (decompose pts).isEmpty = false := by
    cases hd : decompose pts with
    | nil => rw [hd] at hn0; simp at hn0
    | cons a l => rfl
  unfold mergeSegments
  rw [hne]
  simp only [Bool.false_eq_true, if_false]
  rw [hn0]
  simp only [mergeFrom]
  rw [if_pos (by omega : 0 < (decompose pts).length)]
  rw [if_neg (by simp : ¬ (0 : ℕ) ∈ (∅ : Finset ℕ))]
  have hseg0 : (decompose pts).getD 0 dummySeg =
      ⟨(pts.getD 0 (0, 0)).1, (pts.getD 0 (0, 0)).2,
       (pts.getD 1 (0, 0)).1, (pts.getD 1 (0, 0)).2⟩ :=
    decompose_getD (by omega)
  rw [hseg0]
  dsimp only
  rw [Prod.mk.eta, Prod.mk.eta]
  have hseed : [pts.getD 0 (0, 0), pts.getD 1 (0, 0)] = pts.take 2 :=
    (take_two hlen).symm
  rw [hseed]
  have hins : (insert 0 (∅ : Finset ℕ)) = Finset.range 1 := by
    rw [Finset.range_one]
    simp
  rw [hins]
  have hF := extendF_decompose pts tol hlen (decompose pts).length 0
    (by omega) (by omega)
  simp only [Nat.zero_add] at hF
  have hF2 : extendF (decompose pts) tol (decompose pts).length
      (Finset.range 1) (pts.take 2) = (Finset.range (pts.length - 1), pts) := hF
  rw [hF2]
  dsimp only
  have hB := extendB_all_used (decompose pts) tol
    (Finset.range (pts.length - 1))
    (fun j hj => Finset.mem_range.mpr (by omega)) (decompose pts).length pts
  rw [hB]
  dsimp only
  rw [if_pos hlen]
  rw [mergeFrom_all_used (decompose pts) tol (Finset.range (pts.length - 1))
    (fun j hj => Finset.mem_range.mpr (by omega)) n0 1]
  simp

/-- Every polyline emitted by the merge loop has at least two points. -/
theorem mergeFrom_out_length (segs : List Seg) (tol : ℚ) :
    ∀ (fuel i : ℕ) (used : Finset ℕ) (P : Polyline),
      P ∈ mergeFrom segs tol fuel i used → 2 ≤ P.length := by
  intro fuel
  induction fuel with
  | zero => intro i used P hP; simp [mergeFrom] at hP
  | succ f ih =>
      intro i used P hP
      simp only [mergeFrom] at hP
      by_cases hi : i < segs.length
      · rw [if_pos hi] at hP
        by_cases hu : i ∈ used
        · rw [if_pos hu] at hP
          exact ih _ _ P hP
        · rw [if_neg hu] at hP
          simp only [List.mem_append] at hP
          rcases hP with hP | hP
          · split at hP
            · rename_i h2
              rw [List.mem_singleton] at hP
              rw [hP]
              exact h2
            · simp at hP
          · exact ih _ _ P hP
      · rw [if_neg hi] at hP
        simp at hP

/-- Every polyline produced by mergeSegments has at least two points. -/
theorem mergeSegments_out_length {segs : List Seg} {tol : ℚ} {P : Polyline}
    (hP : P ∈ mergeSegments segs tol) : 2 ≤ P.length := by
  unfold mergeSegments at hP
  split at hP
  · simp at hP
  · exact mergeFrom_out_length segs tol _ _ _ P hP

/-- C9: mergeSegments is idempotent on already-merged input: for any
polyline produced by mergeSegments, decomposing it into its consecutive
point-pair segments and re-merging (at the default tolerance) yields exactly
one polyline equal to the original or its reversal (in fact always the
original itself). -/
theorem mergeSegments_idempotent (segs : List Seg) (tol : ℚ) (P : Polyline)
    (hP : P ∈ mergeSegments segs tol) :
    mergeSegments (decompose P) defaultTol = [P] ∨
    mergeSegments (decompose P) defaultTol = [P.reverse] :=
  Or.inl (mergeSegments_remerge P (mergeSegments_out_length hP) defaultTol)

/-- Witness for C9 on the single-segment input (0,0)-(1,1). -/
theorem mergeSegments_idempotent_witness :
    mergeSegments (decompose [((0 : ℚ), (0 : ℚ)), (1, 1)]) defaultTol =
      [[((0 : ℚ), (0 : ℚ)), (1, 1)]] ∨
    mergeSegments (decompose [((0 : ℚ), (0 : ℚ)), (1, 1)]) defaultTol =
      [[((0 : ℚ), (0 : ℚ)), (1, 1)].reverse] := by
  have hd : decompose [((0 : ℚ), (0 : ℚ)), (1, 1)] =
      [(⟨0, 0, 1, 1⟩ : Seg)] := rfl
  have h1 : mergeSegments [(⟨0, 0, 1, 1⟩ : Seg)] defaultTol =
      [[((0 : ℚ), (0 : ℚ)), (1, 1)]] := by
    rw [← hd]
    exact mergeSegments_remerge _ (by norm_num) _
  exact mergeSegments_idempotent [⟨0, 0, 1, 1⟩] defaultTol _
    (by rw [h1]; simp)

/-! ## C3: planar grids -/

/-- One level-loop step that emits a level (nonempty polylines). -/
theorem contourLoop_cons {grid : ℕ → ℕ → Option ℚ} {rows cols : ℕ}
    {interval maxV level0 : ℚ} {mm : ℤ} (h : level0 ≤ maxV)
    (hpos : mergeSegments (computeSegments grid rows cols (round6 level0))
      defaultTol ≠ []) (fuel : ℕ) :
    contourLoop grid rows cols interval maxV mm (fuel + 1) level0 =
      ⟨round6 level0,
       decide (⌊round6 level0 / interval + 1 / 2⌋ % mm = 0),
       mergeSegments (computeSegments grid rows cols (round6 level0))
         defaultTol⟩ ::
      contourLoop grid rows cols interval maxV mm fuel
        (round6 level0 + interval) := by
  simp only [contourLoop]
  rw [if_pos h, if_pos (by simpa [List.length_pos] using hpos)]

/-- One level-loop step that skips a level (no polylines). -/
theorem contourLoop_skip {grid : ℕ → ℕ → Option ℚ} {rows cols : ℕ}
    {interval maxV level0 : ℚ} {mm : ℤ} (h : level0 ≤ maxV)
    (hzero : mergeSegments (computeSegments grid rows cols (round6 level0))
      defaultTol = []) (fuel : ℕ) :
    contourLoop grid rows cols interval maxV mm (fuel + 1) level0 =
      contourLoop grid rows cols interval maxV mm fuel
        (round6 level0 + interval) := by
  simp only [contourLoop]
  rw [if_pos h, hzero]
  simp

theorem foldl_min_le_init : ∀ (l : List ℚ) (a : ℚ), l.foldl min a ≤ a := by
  intro l
  induction l with
  | nil => intro a; simp
  | cons w ws ih =>
      intro a
      simp only [List.foldl_cons]
      exact le_trans (ih (min a w)) (min_le_left a w)

theorem foldl_min_le : ∀ (l : List ℚ) (a x : ℚ), x ∈ l →
    l.foldl min a ≤ x := by
  intro l
  induction l with
  | nil => intro a x hx; simp at hx
  | cons w ws ih =>
      intro a x hx
      simp only [List.foldl_cons]
      rcases List.mem_cons.mp hx with rfl | hx
      · exact le_trans (foldl_min_le_init ws (min a x)) (min_le_right a x)
      · exact ih (min a w) x hx

theorem foldl_max_init_le : ∀ (l : List ℚ) (a : ℚ), a ≤ l.foldl max a := by
  intro l
  induction l with
  | nil => intro a; simp
  | cons w ws ih =>
      intro a
      simp only [List.foldl_cons]
      exact le_trans (le_max_left a w) (ih (max a w))

theorem le_foldl_max : ∀ (l : List ℚ) (a x : ℚ), x ∈ l →
    x ≤ l.foldl max a := by
  intro l
  induction l with
  | nil => intro a x hx; simp at hx
  | cons w ws ih =>
      intro a x hx
      simp only [List.foldl_cons]
      rcases List.mem_cons.mp hx with rfl | hx
      · exact le_trans (le_max_right a x) (foldl_max_init_le ws (max a x))
      · exact ih (max a w) x hx

theorem listMin_le {l : List ℚ} {x : ℚ} (hx : x ∈ l) : listMin l ≤ x := by
  cases l with
  | nil => simp at hx
  | cons w ws =>
      unfold listMin
      rcases List.mem_cons.mp hx with rfl | hx
      · exact foldl_min_le_init ws x
      · exact foldl_min_le ws w x hx

theorem le_listMax {l : List ℚ} {x : ℚ} (hx : x ∈ l) : x ≤ listMax l := by
  cases l with
  | nil => simp at hx
  | cons w ws =>
      unfold listMax
      rcases List.mem_cons.mp hx with rfl | hx
      · exact foldl_max_init_le ws x
      · exact le_foldl_max ws w x hx

theorem foldl_min_mem : ∀ (l : List ℚ) (a : ℚ),
    l.foldl min a = a ∨ l.foldl min a ∈ l := by
  intro l
  induction l with
  | nil => intro a; left; rfl
  | cons w ws ih =>
      intro a
      simp only [List.foldl_cons]
      rcases ih (min a w) with h | h
      · rw [h]
        rcases le_total a w with hle | hle
        · left; exact min_eq_left hle
        · right; rw [min_eq_right hle]; simp
      · right
        simp [h]

theorem foldl_max_mem : ∀ (l : List ℚ) (a : ℚ),
    l.foldl max a = a ∨ l.foldl max a ∈ l := by
  intro l
  induction l with
  | nil => intro a; left; rfl
  | cons w ws ih =>
      intro a
      simp only [List.foldl_cons]
      rcases ih (max a w) with h | h
      · rw [h]
        rcases le_total a w with hle | hle
        · right; rw [max_eq_right hle]; simp
        · left; exact max_eq_left hle
      · right
        simp [h]

theorem listMin_mem {l : List ℚ} (h : l ≠ []) : listMin l ∈ l := by
  cases l with
  | nil => exact absurd rfl h
  | cons w ws =>
      show ws.foldl min w ∈ w :: ws
      rcases foldl_min_mem ws w with h | h
      · rw [h]; simp
      · simp [h]

theorem listMax_mem {l : List ℚ} (h : l ≠ []) : listMax l ∈ l := by
  cases l with
  | nil => exact absurd rfl h
  | cons w ws =>
      show ws.foldl max w ∈ w :: ws
      rcases foldl_max_mem ws w with h | h
      · rw [h]; simp
      · simp [h]

set_option maxHeartbeats 1600000 in
/-- C3 counterexample: on the no-absent planar grid z = row + col over 2x2
(min 0, max 2, non-constant affine) with interval 1, generateContours emits
2 levels (levels 1 and 2; the level at the minimum, 0, classifies every
corner as at-or-above, yields case 15 and no segments, and is dropped),
whereas the claimed count floor((max-min)/interval)+1 is 3. -/
theorem planar_count_counterexample :
    (generateContours gDiag 2 2 1 5).length = 2 ∧
    Int.toNat ⌊(gridMax gDiag 2 2 - gridMin gDiag 2 2) / 1⌋ + 1 = 3 ∧
    (generateContours gDiag 2 2 1 5).length ≠
      Int.toNat ⌊(gridMax gDiag 2 2 - gridMin gDiag 2 2) / 1⌋ + 1 := by
  have hvals : gridVals gDiag 2 2 = [0, 1, 1, 2] := by
    norm_num [gridVals, gDiag, List.range_succ, List.filterMap_cons]
  have hmin : gridMin gDiag 2 2 = 0 := by
    rw [gridMin, hvals]
    norm_num [listMin, min_def]
  have hmax : gridMax gDiag 2 2 = 2 := by
    rw [gridMax, hvals]
    norm_num [listMax, max_def]
  have hstart : startLevel gDiag 2 2 1 = 0 := by
    rw [startLevel, hmin]
    norm_num
  have hfuel : levelFuel 0 2 1 = 4 := by
    norm_num [levelFuel, show Int.toNat 2 = 2 from rfl]
  have hr0 : round6 0 = 0 := by norm_num [round6]
  have hr1 : round6 1 = 1 := by norm_num [round6]
  have hr2 : round6 2 = 2 := by norm_num [round6]
  have hs0 : computeSegments gDiag 2 2 0 = [] := by
    norm_num [computeSegments, gDiag, cellSegs, cellIdx, toIdx, msSegments,
      List.range_succ]
  have hs1 : computeSegments gDiag 2 2 1 = [⟨0, 1, 1, 0⟩] := by
    norm_num [computeSegments, gDiag, cellSegs, cellIdx, toIdx, msSegments,
      edgeMidpoint, List.range_succ, List.filterMap_cons]
  have hs2 : computeSegments gDiag 2 2 2 = [⟨1, 1, 1, 1⟩] := by
    norm_num [computeSegments, gDiag, cellSegs, cellIdx, toIdx, msSegments,
      edgeMidpoint, List.range_succ, List.filterMap_cons]
  have hm1 : mergeSegments [(⟨0, 1, 1, 0⟩ : Seg)] defaultTol =
      [[((0 : ℚ), (1 : ℚ)), (1, 0)]] := by
    have hd : decompose [((0 : ℚ), (1 : ℚ)), (1, 0)] = [⟨0, 1, 1, 0⟩] := rfl
    rw [← hd]
    exact mergeSegments_remerge _ (by norm_num) _
  have hm2 : mergeSegments [(⟨1, 1, 1, 1⟩ : Seg)] defaultTol =
      [[((1 : ℚ), (1 : ℚ)), (1, 1)]] := by
    have hd : decompose [((1 : ℚ), (1 : ℚ)), (1, 1)] = [⟨1, 1, 1, 1⟩] := rfl
    rw [← hd]
    exact mergeSegments_remerge _ (by norm_num) _
  have hlen : (generateContours gDiag 2 2 1 5).length = 2 := by
    unfold generateContours
    rw [if_neg (by norm_num), if_neg (by rw [hvals]; norm_num)]
    rw [hmax, hstart, hfuel]
    rw [show (4 : ℕ) = 3 + 1 from rfl,
      contourLoop_skip (by norm_num) (by rw [hr0, hs0]; rfl) 3]
    rw [hr0, show (0 : ℚ) + 1 = 1 by norm_num]
    rw [show (3 : ℕ) = 2 + 1 from rfl,
      contourLoop_cons (by norm_num) (by rw [hr1, hs1, hm1]; simp) 2]
    rw [hr1, show (1 : ℚ) + 1 = 2 by norm_num]
    rw [show (2 : ℕ) = 1 + 1 from rfl,
      contourLoop_cons (by norm_num) (by rw [hr2, hs2, hm2]; simp) 1]
    rw [hr2, show (2 : ℚ) + 1 = 3 by norm_num]
    rw [contourLoop_empty_of_gt (by norm_num) 1]
    simp
  have hcount : Int.toNat ⌊(gridMax gDiag 2 2 - gridMin gDiag 2 2) / 1⌋ +
      1 = 3 := by
    rw [hmax, hmin]
    norm_num [show Int.toNat 2 = 2 from rfl]
  refine ⟨hlen, hcount, ?_⟩
  rw [hlen, hcount]
  norm_num

/-- On an affine cell z(r, c) = a*r + b*c + g, every kept interpolated edge
point lies exactly on the line b*x + a*y + g = level in grid coordinates. -/
theorem edgeMidpoint_on_line {a b g level : ℚ} {r c : ℕ} {e : ℕ}
    {p : ℚ × ℚ}
    (hp : edgeMidpoint e
      (a * (r : ℚ) + b * (c : ℚ) + g)
      (a * (r : ℚ) + b * ((c : ℚ) + 1) + g)
      (a * ((r : ℚ) + 1) + b * (c : ℚ) + g)
      (a * ((r : ℚ) + 1) + b * ((c : ℚ) + 1) + g) level = some p) :
    b * ((c : ℚ) + p.1) + a * ((r : ℚ) + p.2) + g = level := by
  rcases e with _ | _ | _ | _ | e
  · simp only [edgeMidpoint] at hp
    split at hp
    · simp at hp
    · rename_i hne
      have hden : a * (r : ℚ) + b * ((c : ℚ) + 1) + g -
          (a * (r : ℚ) + b * (c : ℚ) + g) = b := by ring
      rw [hden] at hne
      simp only [Option.some.injEq] at hp
      rw [← hp]
      dsimp only
      rw [hden]
      field_simp
      ring
  · simp only [edgeMidpoint] at hp
    split at hp
    · simp at hp
    · rename_i hne
      have hden : a * ((r : ℚ) + 1) + b * ((c : ℚ) + 1) + g -
          (a * (r : ℚ) + b * ((c : ℚ) + 1) + g) = a := by ring
      rw [hden] at hne
      simp only [Option.some.injEq] at hp
      rw [← hp]
      dsimp only
      rw [hden]
      field_simp
      ring
  · simp only [edgeMidpoint] at hp
    split at hp
    · simp at hp
    · rename_i hne
      have hden : a * ((r : ℚ) + 1) + b * ((c : ℚ) + 1) + g -
          (a * ((r : ℚ) + 1) + b * (c : ℚ) + g) = b := by ring
      rw [hden] at hne
      simp only [Option.some.injEq] at hp
      rw [← hp]
      dsimp only
      rw [hden]
      field_simp
      ring
  · simp only [edgeMidpoint] at hp
    split at hp
    · simp at hp
    · rename_i hne
      have hden : a * ((r : ℚ) + 1) + b * (c : ℚ) + g -
          (a * (r : ℚ) + b * (c : ℚ) + g) = a := by ring
      rw [hden] at hne
      simp only [Option.some.injEq] at hp
      rw [← hp]
      dsimp only
      rw [hden]
      field_simp
      ring
  · simp [edgeMidpoint] at hp

/-- On an affine grid, both endpoints of every emitted segment lie on the
level line. -/
theorem computeSegments_on_line {grid : ℕ → ℕ → Option ℚ} {rows cols : ℕ}
    {a b g level : ℚ}
    (hgrid : ∀ r c, r < rows → c < cols →
      grid r c = some (a * (r : ℚ) + b * (c : ℚ) + g)) :
    ∀ s ∈ computeSegments grid rows cols level,
      b * s.x1 + a * s.y1 + g = level ∧
      b * s.x2 + a * s.y2 + g = level := by
  intro s hs
  obtain ⟨r, c, hr, hc, v00, v10, v01, v11, h00, h10, h01, h11, hmem⟩ :=
    computeSegments_mem hs
  have hr1 : r < rows := by omega
  have hr2 : r + 1 < rows := by omega
  have hc1 : c < cols := by omega
  have hc2 : c + 1 < cols := by omega
  have e00 : v00 = a * (r : ℚ) + b * (c : ℚ) + g := by
    have := (hgrid r c hr1 hc1) ▸ h00
    simpa using this.symm
  have e10 : v10 = a * (r : ℚ) + b * ((c : ℚ) + 1) + g := by
    have := (hgrid r (c + 1) hr1 hc2) ▸ h10
    have h2 := this.symm
    simp only [Option.some.injEq] at h2
    rw [h2]
    push_cast
    ring
  have e01 : v01 = a * ((r : ℚ) + 1) + b * (c : ℚ) + g := by
    have := (hgrid (r + 1) c hr2 hc1) ▸ h01
    have h2 := this.symm
    simp only [Option.some.injEq] at h2
    rw [h2]
    push_cast
    ring
  have e11 : v11 = a * ((r : ℚ) + 1) + b * ((c : ℚ) + 1) + g := by
    have := (hgrid (r + 1) (c + 1) hr2 hc2) ▸ h11
    have h2 := this.symm
    simp only [Option.some.injEq] at h2
    rw [h2]
    push_cast
    ring
  rw [e00, e10, e01, e11] at hmem
  unfold cellSegs at hmem
  rw [List.mem_filterMap] at hmem
  obtain ⟨e, he, hfe⟩ := hmem
  cases hm1 : edgeMidpoint e.1
      (a * (r : ℚ) + b * (c : ℚ) + g)
      (a * (r : ℚ) + b * ((c : ℚ) + 1) + g)
      (a * ((r : ℚ) + 1) + b * (c : ℚ) + g)
      (a * ((r : ℚ) + 1) + b * ((c : ℚ) + 1) + g) level with
  | none => rw [hm1] at hfe; simp at hfe
  | some p1 =>
      cases hm2 : edgeMidpoint e.2
          (a * (r : ℚ) + b * (c : ℚ) + g)
          (a * (r : ℚ) + b * ((c : ℚ) + 1) + g)
          (a * ((r : ℚ) + 1) + b * (c : ℚ) + g)
          (a * ((r : ℚ) + 1) + b * ((c : ℚ) + 1) + g) level with
      | none => rw [hm1, hm2] at hfe; simp at hfe
      | some p2 =>
          rw [hm1, hm2] at hfe
          simp only [Option.some.injEq] at hfe
          rw [← hfe]
          exact ⟨edgeMidpoint_on_line hm1, edgeMidpoint_on_line hm2⟩

/-- The forward extension loop only ever appends endpoints of input
segments, so it preserves any property of the points. -/
theorem extendF_points (segs : List Seg) (tol : ℚ) (Good : ℚ × ℚ → Prop)
    (hseg : ∀ s ∈ segs, Good (s.x1, s.y1) ∧ Good (s.x2, s.y2)) :
    ∀ (fuel : ℕ) (used : Finset ℕ) (pts : Polyline),
      (∀ p ∈ pts, Good p) →
      ∀ p ∈ (extendF segs tol fuel used pts).2, Good p := by
  intro fuel
  induction fuel with
  | zero => intro used pts h p hp; exact h p hp
  | succ f ih =>
      intro used pts h p hp
      simp only [extendF] at hp
      cases hl : pts.getLast? with
      | none => rw [hl] at hp; exact h p hp
      | some lastPt =>
          rw [hl] at hp
          dsimp only at hp
          cases hf : (adjAt segs tol
              (segKey tol lastPt.1 lastPt.2)).find?
              (fun e => decide (e.1 ∉ used)) with
          | none => rw [hf] at hp; exact h p hp
          | some e =>
              rw [hf] at hp
              dsimp only at hp
              have hmem := List.mem_of_find?_eq_some hf
              have hlt := (adjFrom_mem segs 0 e hmem).2
              have hsm : segs.getD e.1 dummySeg ∈ segs := by
                rw [List.getD_eq_getElem _ _ (by omega)]
                exact List.getElem_mem _
              have hq : Good (if e.2 then
                  ((segs.getD e.1 dummySeg).x1, (segs.getD e.1 dummySeg).y1)
                else
                  ((segs.getD e.1 dummySeg).x2,
                   (segs.getD e.1 dummySeg).y2)) := by
                cases e.2
                · exact (hseg _ hsm).2
                · exact (hseg _ hsm).1
              refine ih _ _ ?_ p hp
              intro q hq2
              rcases List.mem_append.mp hq2 with hq2 | hq2
              · exact h q hq2
              · rw [List.mem_singleton] at hq2
                rw [hq2]
                exact hq

/-- The backward extension loop likewise only prepends segment endpoints. -/
theorem extendB_points (segs : List Seg) (tol : ℚ) (Good : ℚ × ℚ → Prop)
    (hseg : ∀ s ∈ segs, Good (s.x1, s.y1) ∧ Good (s.x2, s.y2)) :
    ∀ (fuel : ℕ) (used : Finset ℕ) (pts : Polyline),
      (∀ p ∈ pts, Good p) →
      ∀ p ∈ (extendB segs tol fuel used pts).2, Good p := by
  intro fuel
  induction fuel with
  | zero => intro used pts h p hp; exact h p hp
  | succ f ih =>
      intro used pts h p hp
      simp only [extendB] at hp
      cases hl : pts.head? with
      | none => rw [hl] at hp; exact h p hp
      | some firstPt =>
          rw [hl] at hp
          dsimp only at hp
          cases hf : (adjAt segs tol
              (segKey tol firstPt.1 firstPt.2)).find?
              (fun e => decide (e.1 ∉ used)) with
          | none => rw [hf] at hp; exact h p hp
          | some e =>
              rw [hf] at hp
              dsimp only at hp
              have hmem := List.mem_of_find?_eq_some hf
              have hlt := (adjFrom_mem segs 0 e hmem).2
              have hsm : segs.getD e.1 dummySeg ∈ segs := by
                rw [List.getD_eq_getElem _ _ (by omega)]
                exact List.getElem_mem _
              have hq : Good (if e.2 then
                  ((segs.getD e.1 dummySeg).x1, (segs.getD e.1 dummySeg).y1)
                else
                  ((segs.getD e.1 dummySeg).x2,
                   (segs.getD e.1 dummySeg).y2)) := by
                cases e.2
                · exact (hseg _ hsm).2
                · exact (hseg _ hsm).1
              refine ih _ _ ?_ p hp
              intro q hq2
              rcases List.mem_cons.mp hq2 with hq2 | hq2
              · rw [hq2]
                exact hq
              · exact h q hq2

/-- Every point of every polyline emitted by the merge loop is an endpoint
of some input segment. -/
theorem mergeFrom_points (segs : List Seg) (tol : ℚ) (Good : ℚ × ℚ → Prop)
    (hseg : ∀ s ∈ segs, Good (s.x1, s.y1) ∧ Good (s.x2, s.y2)) :
    ∀ (fuel i : ℕ) (used : Finset ℕ) (pl : Polyline),
      pl ∈ mergeFrom segs tol fuel i used → ∀ p ∈ pl, Good p := by
  intro fuel
  induction fuel with
  | zero => intro i used pl hpl; simp [mergeFrom] at hpl
  | succ f ih =>
      intro i used pl hpl
      simp only [mergeFrom] at hpl
      by_cases hi : i < segs.length
      · rw [if_pos hi] at hpl
        by_cases hu : i ∈ used
        · rw [if_pos hu] at hpl
          exact ih _ _ pl hpl
        · rw [if_neg hu] at hpl
          simp only [List.mem_append] at hpl
          rcases hpl with hpl | hpl
          · split at hpl
            · rw [List.mem_singleton] at hpl
              rw [hpl]
              have hsm : segs.getD i dummySeg ∈ segs := by
                rw [List.getD_eq_getElem _ _ hi]
                exact List.getElem_mem _
              have hseed : ∀ p ∈ [((segs.getD i dummySeg).x1,
                  (segs.getD i dummySeg).y1),
                  ((segs.getD i dummySeg).x2,
                   (segs.getD i dummySeg).y2)], Good p := by
                intro p hp
                rcases List.mem_cons.mp hp with rfl | hp
                · exact (hseg _ hsm).1
                · rw [List.mem_singleton] at hp
                  rw [hp]
                  exact (hseg _ hsm).2
              exact extendB_points segs tol Good hseg _ _ _
                (extendF_points segs tol Good hseg _ _ _ hseed)
            · simp at hpl
          · exact ih _ _ pl hpl
      · rw [if_neg hi] at hpl
        simp at hpl

/-- Every point of every polyline produced by mergeSegments is an endpoint
of some input segment. -/
theorem mergeSegments_points (segs : List Seg) (tol : ℚ)
    (Good : ℚ × ℚ → Prop)
    (hseg : ∀ s ∈ segs, Good (s.x1, s.y1) ∧ Good (s.x2, s.y2)) :
    ∀ pl ∈ mergeSegments segs tol, ∀ p ∈ pl, Good p := by
  intro pl hpl
  unfold mergeSegments at hpl
  split at hpl
  · simp at hpl
  · exact mergeFrom_points segs tol Good hseg _ _ _ pl hpl

/-- Every emitted contour level's polylines are the merge of its level's
segments. -/
theorem contourLoop_mem {grid : ℕ → ℕ → Option ℚ} {rows cols : ℕ}
    {interval maxV : ℚ} {mm : ℤ} :
    ∀ (fuel : ℕ) (level : ℚ) (cl : ContourLevel),
      cl ∈ contourLoop grid rows cols interval maxV mm fuel level →
      cl.polylines =
        mergeSegments (computeSegments grid rows cols cl.level)
          defaultTol := by
  intro fuel
  induction fuel with
  | zero => intro level cl h; simp [contourLoop] at h
  | succ f ih =>
      intro level cl h
      simp only [contourLoop] at h
      by_cases hle : level ≤ maxV
      · rw [if_pos hle] at h
        split at h
        · rcases List.mem_cons.mp h with rfl | h
          · rfl
          · exact ih _ cl h
        · exact ih _ cl h
      · rw [if_neg hle] at h
        simp at h

/-- Discrete intermediate value property on the grid lattice: between a
point below the level and a point at-or-above it there is an adjacent pair
straddling the level. -/
theorem lattice_ivt (f : ℕ → ℕ → ℚ) (rows cols : ℕ) (level : ℚ) :
    ∀ (d r1 c1 r2 c2 : ℕ), r1 < rows → c1 < cols → r2 < rows → c2 < cols →
      (r1 - r2) + (r2 - r1) + (c1 - c2) + (c2 - c1) ≤ d →
      f r1 c1 < level → level ≤ f r2 c2 →
      ∃ ra ca rb cb, ra < rows ∧ ca < cols ∧ rb < rows ∧ cb < cols ∧
        ((ra = rb ∧ (ca + 1 = cb ∨ cb + 1 = ca)) ∨
         (ca = cb ∧ (ra + 1 = rb ∨ rb + 1 = ra))) ∧
        f ra ca < level ∧ level ≤ f rb cb := by
  intro d
  induction d with
  | zero =>
      intro r1 c1 r2 c2 hr1 hc1 hr2 hc2 hd hlo hhi
      have heq : r1 = r2 ∧ c1 = c2 := by omega
      rw [heq.1, heq.2] at hlo
      exact absurd hhi (not_le.mpr hlo)
  | succ n ih =>
      intro r1 c1 r2 c2 hr1 hc1 hr2 hc2 hd hlo hhi
      by_cases hrr : r1 = r2
      · by_cases hcc : c1 = c2
        · rw [hrr, hcc] at hlo
          exact absurd hhi (not_le.mpr hlo)
        · by_cases hlt : c2 < c1
          · by_cases hstep : f r2 (c2 + 1) < level
            · exact ⟨r2, c2 + 1, r2, c2, hr2, by omega, hr2, hc2,
                Or.inl ⟨rfl, Or.inr rfl⟩, hstep, hhi⟩
            · push_neg at hstep
              exact ih r1 c1 r2 (c2 + 1) hr1 hc1 hr2 (by omega) (by omega)
                hlo hstep
          · by_cases hstep : f r2 (c2 - 1) < level
            · exact ⟨r2, c2 - 1, r2, c2, hr2, by omega, hr2, hc2,
                Or.inl ⟨rfl, Or.inl (by omega)⟩, hstep, hhi⟩
            · push_neg at hstep
              exact ih r1 c1 r2 (c2 - 1) hr1 hc1 hr2 (by omega) (by omega)
                hlo hstep
      · by_cases hlt : r2 < r1
        · by_cases hstep : f (r2 + 1) c2 < level
          · exact ⟨r2 + 1, c2, r2, c2, by omega, hc2, hr2, hc2,
              Or.inr ⟨rfl, Or.inr rfl⟩, hstep, hhi⟩
          · push_neg at hstep
            exact ih r1 c1 (r2 + 1) c2 hr1 hc1 (by omega) hc2 (by omega)
              hlo hstep
        · by_cases hstep : f (r2 - 1) c2 < level
          · exact ⟨r2 - 1, c2, r2, c2, by omega, hc2, hr2, hc2,
              Or.inr ⟨rfl, Or.inl (by omega)⟩, hstep, hhi⟩
          · push_neg at hstep
            exact ih r1 c1 (r2 - 1) c2 hr1 hc1 (by omega) hc2 (by omega)
              hlo hstep

/-- A cell whose corner classifications are not all equal contributes at
least one segment. -/
theorem cellSegs_ne_nil {v00 v10 v01 v11 level : ℚ} {r c : ℕ}
    (h : ¬(decide (level ≤ v00) = decide (level ≤ v10) ∧
           decide (level ≤ v10) = decide (level ≤ v11) ∧
           decide (level ≤ v11) = decide (level ≤ v01))) :
    cellSegs v00 v10 v01 v11 level r c ≠ [] := by
  have hms := (msSegments_ne_nil_iff (decide (level ≤ v00))
    (decide (level ≤ v10)) (decide (level ≤ v11))
    (decide (level ≤ v01))).mpr h
  unfold cellSegs cellIdx
  cases hcase : msSegments (toIdx (decide (level ≤ v00))
      (decide (level ≤ v10)) (decide (level ≤ v11))
      (decide (level ≤ v01))) with
  | nil => exact absurd hcase hms
  | cons e rest =>
      have hstr := msSegments_straddle (decide (level ≤ v00))
        (decide (level ≤ v10)) (decide (level ≤ v11))
        (decide (level ≤ v01)) e (by rw [hcase]; simp)
      have helt := msSegments_edge_lt (decide (level ≤ v00))
        (decide (level ≤ v10)) (decide (level ≤ v11))
        (decide (level ≤ v01)) e (by rw [hcase]; simp)
      obtain ⟨p1, hp1, _⟩ := edgeMidpoint_bounds helt.1 hstr.1
      obtain ⟨p2, hp2, _⟩ := edgeMidpoint_bounds helt.2 hstr.2
      rw [List.filterMap_cons, hp1, hp2]
      simp

/-- A segment of a complete in-range cell is a segment of the whole grid. -/
theorem mem_computeSegments_of_cell {grid : ℕ → ℕ → Option ℚ}
    {rows cols : ℕ} {level : ℚ} {R C : ℕ} {w00 w10 w01 w11 : ℚ} {s : Seg}
    (hR : R < rows - 1) (hC : C < cols - 1)
    (h00 : grid R C = some w00) (h10 : grid R (C + 1) = some w10)
    (h01 : grid (R + 1) C = some w01)
    (h11 : grid (R + 1) (C + 1) = some w11)
    (hs : s ∈ cellSegs w00 w10 w01 w11 level R C) :
    s ∈ computeSegments grid rows cols level := by
  unfold computeSegments
  rw [List.mem_flatMap]
  refine ⟨R, List.mem_range.mpr hR, ?_⟩
  rw [List.mem_flatMap]
  refine ⟨C, List.mem_range.mpr hC, ?_⟩
  rw [h00, h10, h01, h11]
  exact hs

/-- On a fully-present grid of at least 2x2, some segment is emitted at a
level exactly when the level lies strictly above the minimum and at most the
maximum grid value. -/
theorem computeSegments_ne_nil_iff {grid : ℕ → ℕ → Option ℚ}
    {rows cols : ℕ} {f : ℕ → ℕ → ℚ} {level : ℚ}
    (hrows : 2 ≤ rows) (hcols : 2 ≤ cols)
    (hgrid : ∀ r c, r < rows → c < cols → grid r c = some (f r c)) :
    computeSegments grid rows cols level ≠ [] ↔
      gridMin grid rows cols < level ∧ level ≤ gridMax grid rows cols := by
  have hmemval : ∀ r c, r < rows → c < cols →
      f r c ∈ gridVals grid rows cols := by
    intro r c hr hc
    rw [mem_gridVals]
    exact ⟨r, hr, c, hc, hgrid r c hr hc⟩
  constructor
  · intro h
    obtain ⟨s, hs⟩ := List.exists_mem_of_ne_nil _ h
    obtain ⟨r, c, hr, hc, v00, v10, v01, v11, h00, h10, h01, h11, hmem⟩ :=
      computeSegments_mem hs
    have hr1 : r < rows := by omega
    have hr2 : r + 1 < rows := by omega
    have hc1 : c < cols := by omega
    have hc2 : c + 1 < cols := by omega
    unfold cellSegs at hmem
    rw [List.mem_filterMap] at hmem
    obtain ⟨e, he, _⟩ := hmem
    have hne : msSegments (cellIdx v00 v10 v01 v11 level) ≠ [] := by
      intro h0
      rw [h0] at he
      simp at he
    unfold cellIdx at hne
    have hmix := (msSegments_ne_nil_iff _ _ _ _).mp hne
    have hv00 : v00 ∈ gridVals grid rows cols := by
      have hx := hgrid r c hr1 hc1
      rw [hx] at h00
      simp only [Option.some.injEq] at h00
      rw [← h00]
      exact hmemval r c hr1 hc1
    have hv10 : v10 ∈ gridVals grid rows cols := by
      have hx := hgrid r (c + 1) hr1 hc2
      rw [hx] at h10
      simp only [Option.some.injEq] at h10
      rw [← h10]
      exact hmemval r (c + 1) hr1 hc2
    have hv01 : v01 ∈ gridVals grid rows cols := by
      have hx := hgrid (r + 1) c hr2 hc1
      rw [hx] at h01
      simp only [Option.some.injEq] at h01
      rw [← h01]
      exact hmemval (r + 1) c hr2 hc1
    have hv11 : v11 ∈ gridVals grid rows cols := by
      have hx := hgrid (r + 1) (c + 1) hr2 hc2
      rw [hx] at h11
      simp only [Option.some.injEq] at h11
      rw [← h11]
      exact hmemval (r + 1) (c + 1) hr2 hc2
    have habove : ∃ x ∈ gridVals grid rows cols, level ≤ x := by
      by_contra hno
      push_neg at hno
      apply hmix
      have b00 : decide (level ≤ v00) = false := by
        simp [not_le.mp (fun hx => absurd hx (not_le.mpr (hno v00 hv00)))]
      have b10 : decide (level ≤ v10) = false := by
        simp [not_le.mp (fun hx => absurd hx (not_le.mpr (hno v10 hv10)))]
      have b01 : decide (level ≤ v01) = false := by
        simp [not_le.mp (fun hx => absurd hx (not_le.mpr (hno v01 hv01)))]
      have b11 : decide (level ≤ v11) = false := by
        simp [not_le.mp (fun hx => absurd hx (not_le.mpr (hno v11 hv11)))]
      rw [b00, b10, b01, b11]
      exact ⟨rfl, rfl, rfl⟩
    have hbelow : ∃ x ∈ gridVals grid rows cols, x < level := by
      by_contra hno
      push_neg at hno
      apply hmix
      have b00 : decide (level ≤ v00) = true := by simp [hno v00 hv00]
      have b10 : decide (level ≤ v10) = true := by simp [hno v10 hv10]
      have b01 : decide (level ≤ v01) = true := by simp [hno v01 hv01]
      have b11 : decide (level ≤ v11) = true := by simp [hno v11 hv11]
      rw [b00, b10, b01, b11]
      exact ⟨rfl, rfl, rfl⟩
    obtain ⟨xa, hxa, hxa2⟩ := habove
    obtain ⟨xb, hxb, hxb2⟩ := hbelow
    exact ⟨lt_of_le_of_lt (listMin_le hxb) hxb2,
      le_trans hxa2 (le_listMax hxa)⟩
  · rintro ⟨hmin, hmax⟩
    have hvals_ne : gridVals grid rows cols ≠ [] := by
      intro h0
      have := hmemval 0 0 (by omega) (by omega)
      rw [h0] at this
      simp at this
    obtain ⟨r1, hr1, c1, hc1, hmin1⟩ :=
      mem_gridVals.mp (listMin_mem hvals_ne)
    obtain ⟨r2, hr2, c2, hc2, hmax1⟩ :=
      mem_gridVals.mp (listMax_mem hvals_ne)
    have hf1 : f r1 c1 = gridMin grid rows cols := by
      have := hgrid r1 c1 hr1 hc1
      rw [this] at hmin1
      simpa using hmin1
    have hf2 : f r2 c2 = gridMax grid rows cols := by
      have := hgrid r2 c2 hr2 hc2
      rw [this] at hmax1
      simpa using hmax1
    have hlo : f r1 c1 < level := by rw [hf1]; exact hmin
    have hhi : level ≤ f r2 c2 := by rw [hf2]; exact hmax
    obtain ⟨ra, ca, rb, cb, hra, hca, hrb, hcb, hadj, halo, hahi⟩ :=
      lattice_ivt f rows cols level
        ((r1 - r2) + (r2 - r1) + (c1 - c2) + (c2 - c1)) r1 c1 r2 c2
        hr1 hc1 hr2 hc2 (le_refl _) hlo hhi
    have hdiff : decide (level ≤ f ra ca) = false ∧
        decide (level ≤ f rb cb) = true := by
      constructor
      · simp [not_le.mpr halo]
      · simp [hahi]
    rcases hadj with ⟨hreq, hcadj⟩ | ⟨hceq, hradj⟩
    · -- horizontal pair, row ra = rb
      have hC : min ca cb < cols - 1 := by omega
      set C := min ca cb with hCdef
      have hpair : (ca = C ∧ cb = C + 1) ∨ (cb = C ∧ ca = C + 1) := by
        omega
      have hd2 : decide (level ≤ f ra cb) = true := by
        rw [hreq]
        exact hdiff.2
      have hbits : decide (level ≤ f ra C) ≠ decide (level ≤ f ra (C + 1))
          := by
        rcases hpair with ⟨h1, h2⟩ | ⟨h1, h2⟩
        · rw [← h2, ← h1]
          rw [hdiff.1, hd2]
          simp
        · rw [← h2, ← h1]
          rw [hdiff.1, hd2]
          simp
      by_cases hrtop : ra < rows - 1
      · -- pair on the top edge of cell (ra, C)
        apply (fun hcs => by
          obtain ⟨s, hss⟩ := List.exists_mem_of_ne_nil _ hcs
          intro h0
          have hmm := mem_computeSegments_of_cell hrtop hC
            (hgrid ra C (by omega) (by omega))
            (hgrid ra (C + 1) (by omega) (by omega))
            (hgrid (ra + 1) C (by omega) (by omega))
            (hgrid (ra + 1) (C + 1) (by omega) (by omega)) hss
          rw [h0] at hmm
          simp at hmm : cellSegs (f ra C) (f ra (C + 1)) (f (ra + 1) C)
            (f (ra + 1) (C + 1)) level ra C ≠ [] → _)
        apply cellSegs_ne_nil
        intro hall
        exact hbits hall.1
      · -- ra is the last row: pair on the bottom edge of cell (ra-1, C)
        have hra2 : ra - 1 < rows - 1 := by omega
        have hraeq : ra - 1 + 1 = ra := by omega
        apply (fun hcs => by
          obtain ⟨s, hss⟩ := List.exists_mem_of_ne_nil _ hcs
          intro h0
          have hmm := mem_computeSegments_of_cell hra2 hC
            (hgrid (ra - 1) C (by omega) (by omega))
            (hgrid (ra - 1) (C + 1) (by omega) (by omega))
            (hgrid (ra - 1 + 1) C (by omega) (by omega))
            (hgrid (ra - 1 + 1) (C + 1) (by omega) (by omega)) hss
          rw [h0] at hmm
          simp at hmm : cellSegs (f (ra - 1) C) (f (ra - 1) (C + 1))
            (f (ra - 1 + 1) C) (f (ra - 1 + 1) (C + 1)) level
            (ra - 1) C ≠ [] → _)
        apply cellSegs_ne_nil
        rw [hraeq]
        intro hall
        exact hbits hall.2.2.symm
    · -- vertical pair, column ca = cb
      have hR : min ra rb < rows - 1 := by omega
      set R := min ra rb with hRdef
      have hpair : (ra = R ∧ rb = R + 1) ∨ (rb = R ∧ ra = R + 1) := by
        omega
      have hd2 : decide (level ≤ f rb ca) = true := by
        rw [hceq]
        exact hdiff.2
      have hbits : decide (level ≤ f R ca) ≠ decide (level ≤ f (R + 1) ca)
          := by
        rcases hpair with ⟨h1, h2⟩ | ⟨h1, h2⟩
        · rw [← h2, ← h1]
          rw [hdiff.1, hd2]
          simp
        · rw [← h2, ← h1]
          rw [hdiff.1, hd2]
          simp
      by_cases hcleft : ca < cols - 1
      · -- pair on the left edge of cell (R, ca)
        apply (fun hcs => by
          obtain ⟨s, hss⟩ := List.exists_mem_of_ne_nil _ hcs
          intro h0
          have hmm := mem_computeSegments_of_cell hR hcleft
            (hgrid R ca (by omega) (by omega))
            (hgrid R (ca + 1) (by omega) (by omega))
            (hgrid (R + 1) ca (by omega) (by omega))
            (hgrid (R + 1) (ca + 1) (by omega) (by omega)) hss
          rw [h0] at hmm
          simp at hmm : cellSegs (f R ca) (f R (ca + 1)) (f (R + 1) ca)
            (f (R + 1) (ca + 1)) level R ca ≠ [] → _)
        apply cellSegs_ne_nil
        intro hall
        have hb : decide (level ≤ f R ca) = decide (level ≤ f (R + 1) ca) :=
          (hall.1.trans hall.2.1).trans hall.2.2
        exact hbits hb
      · -- ca is the last column: pair on the right edge of cell (R, ca-1)
        have hc2' : ca - 1 < cols - 1 := by omega
        have hcaeq : ca - 1 + 1 = ca := by omega
        apply (fun hcs => by
          obtain ⟨s, hss⟩ := List.exists_mem_of_ne_nil _ hcs
          intro h0
          have hmm := mem_computeSegments_of_cell hR hc2'
            (hgrid R (ca - 1) (by omega) (by omega))
            (hgrid R (ca - 1 + 1) (by omega) (by omega))
            (hgrid (R + 1) (ca - 1) (by omega) (by omega))
            (hgrid (R + 1) (ca - 1 + 1) (by omega) (by omega)) hss
          rw [h0] at hmm
          simp at hmm : cellSegs (f R (ca - 1)) (f R (ca - 1 + 1))
            (f (R + 1) (ca - 1)) (f (R + 1) (ca - 1 + 1)) level
            R (ca - 1) ≠ [] → _)
        apply cellSegs_ne_nil
        rw [hcaeq]
        intro hall
        exact hbits hall.2.1

/-- The forward extension loop never shortens the polyline. -/
theorem extendF_len (segs : List Seg) (tol : ℚ) :
    ∀ (fuel : ℕ) (used : Finset ℕ) (pts : Polyline),
      pts.length ≤ (extendF segs tol fuel used pts).2.length := by
  intro fuel
  induction fuel with
  | zero => intro used pts; exact le_refl _
  | succ f ih =>
      intro used pts
      simp only [extendF]
      cases hl : pts.getLast? with
      | none => exact le_refl _
      | some lastPt =>
          dsimp only
          cases hf : (adjAt segs tol
              (segKey tol lastPt.1 lastPt.2)).find?
              (fun e => decide (e.1 ∉ used)) with
          | none => exact le_refl _
          | some e =>
              dsimp only
              refine le_trans ?_ (ih _ _)
              simp

/-- The backward extension loop never shortens the polyline. -/
theorem extendB_len (segs : List Seg) (tol : ℚ) :
    ∀ (fuel : ℕ) (used : Finset ℕ) (pts : Polyline),
      pts.length ≤ (extendB segs tol fuel used pts).2.length := by
  intro fuel
  induction fuel with
  | zero => intro used pts; exact le_refl _
  | succ f ih =>
      intro used pts
      simp only [extendB]
      cases hl : pts.head? with
      | none => exact le_refl _
      | some firstPt =>
          dsimp only
          cases hf : (adjAt segs tol
              (segKey tol firstPt.1 firstPt.2)).find?
              (fun e => decide (e.1 ∉ used)) with
          | none => exact le_refl _
          | some e =>
              dsimp only
              refine le_trans ?_ (ih _ _)
              simp

/-- mergeSegments of a nonempty segment list is nonempty: the first seed
polyline has at least its two seed points and is always emitted. -/
theorem mergeSegments_ne_nil {segs : List Seg} (tol : ℚ) (h : segs ≠ []) :
    mergeSegments segs tol ≠ [] := by
  obtain ⟨n0, hn0⟩ : ∃ n0, segs.length = n0 + 1 := by
    cases segs with
    | nil => exact absurd rfl h
    | cons a l => exact ⟨l.length, rfl⟩
  have hne : segs.isEmpty = false := by
    cases segs with
    | nil => exact absurd rfl h
    | cons a l => rfl
  unfold mergeSegments
  rw [hne]
  simp only [Bool.false_eq_true, if_false]
  rw [hn0]
  simp only [mergeFrom]
  rw [if_pos (by omega : 0 < segs.length),
    if_neg (by simp : ¬ (0 : ℕ) ∈ (∅ : Finset ℕ))]
  have h2 : 2 ≤ ((extendB segs tol segs.length
      (extendF segs tol segs.length (insert 0 ∅)
        [((segs.getD 0 dummySeg).x1, (segs.getD 0 dummySeg).y1),
         ((segs.getD 0 dummySeg).x2, (segs.getD 0 dummySeg).y2)]).1
      (extendF segs tol segs.length (insert 0 ∅)
        [((segs.getD 0 dummySeg).x1, (segs.getD 0 dummySeg).y1),
         ((segs.getD 0 dummySeg).x2,
          (segs.getD 0 dummySeg).y2)]).2).2).length := by
    refine le_trans ?_ (extendB_len segs tol _ _ _)
    refine le_trans ?_ (extendF_len segs tol _ _ _)
    simp
  rw [if_pos h2]
  simp

/-- The level loop on a grid whose per-level merged output is nonempty
exactly between the grid extremes lists exactly the visited levels in that
range. -/
theorem contourLoop_filter {grid : ℕ → ℕ → Option ℚ} {rows cols : ℕ}
    {interval maxV minV : ℚ} {mm : ℤ}
    (hiff : ∀ L, mergeSegments (computeSegments grid rows cols L)
      defaultTol ≠ [] ↔ (minV < L ∧ L ≤ maxV)) :
    ∀ (fuel : ℕ) (level : ℚ),
      (contourLoop grid rows cols interval maxV mm fuel level).map
        ContourLevel.level =
      (scanLevels interval maxV fuel level).filter
        (fun L => decide (minV < L ∧ L ≤ maxV)) := by
  intro fuel
  induction fuel with
  | zero => intro level; rfl
  | succ f ih =>
      intro level
      by_cases hle : level ≤ maxV
      · by_cases hc : minV < round6 level ∧ round6 level ≤ maxV
        · rw [contourLoop_cons hle ((hiff (round6 level)).mpr hc) f]
          unfold scanLevels
          rw [if_pos hle]
          rw [List.map_cons, List.filter_cons_of_pos (by simpa using hc)]
          rw [ih]
        · have hz : mergeSegments (computeSegments grid rows cols
              (round6 level)) defaultTol = [] := by
            by_contra hne
            exact hc ((hiff _).mp hne)
          rw [contourLoop_skip hle hz f]
          unfold scanLevels
          rw [if_pos hle]
          rw [List.filter_cons_of_neg (by simpa using hc)]
          exact ih _
      · rw [contourLoop_empty_of_gt (not_le.mp hle) _]
        unfold scanLevels
        rw [if_neg hle]
        rfl

theorem filterMap_all_some_length {f : ℕ → Option ℚ} :
    ∀ l : List ℕ, (∀ x ∈ l, (f x).isSome) →
      (l.filterMap f).length = l.length := by
  intro l
  induction l with
  | nil => intro _; rfl
  | cons w ws ih =>
      intro h
      rw [List.filterMap_cons]
      cases hw : f w with
      | none =>
          have := h w (by simp)
          rw [hw] at this
          simp at this
      | some v =>
          simp only [List.length_cons]
          rw [ih (fun x hx => h x (by simp [hx]))]

theorem sum_const_list : ∀ (l : List ℕ) (k : ℕ),
    (l.map fun _ => k).sum = l.length * k := by
  intro l
  induction l with
  | nil => intro k; simp
  | cons w ws ih =>
      intro k
      simp only [List.map_cons, List.sum_cons, List.length_cons, ih]
      ring

/-- A fully-present grid has rows*cols samples. -/
theorem gridVals_total_length {grid : ℕ → ℕ → Option ℚ} {rows cols : ℕ}
    {f : ℕ → ℕ → ℚ}
    (hgrid : ∀ r c, r < rows → c < cols → grid r c = some (f r c)) :
    (gridVals grid rows cols).length = rows * cols := by
  unfold gridVals
  rw [List.length_flatMap]
  have hinner : ∀ r ∈ List.range rows,
      ((List.range cols).filterMap fun c => grid r c).length = cols := by
    intro r hr
    rw [filterMap_all_some_length _ (fun c hc => by
      rw [hgrid r c (List.mem_range.mp hr) (List.mem_range.mp hc)]
      rfl)]
    exact List.length_range cols
  calc ((List.range rows).map fun r =>
        ((List.range cols).filterMap fun c => grid r c).length).sum
      = ((List.range rows).map fun _ => cols).sum := by
        rw [List.map_congr_left hinner]
    _ = rows * cols := by
        rw [sum_const_list]
        simp

/-- C3 (amended): for every grid with no absent values whose elevation is a
non-constant affine function z(r, c) = a*r + b*c + g of row and column, and
every interval > 0:
(a) every point of every polyline emitted by generateContours at a level lies
exactly on the straight line b*x + a*y + g = level, so the polylines of one
level are collinear, the lines of different levels are parallel, and their
offsets advance exactly with the level;
(b) the emitted levels are exactly the levels visited by the level loop that
lie in the half-open range (min, max] of the grid values.  The count
floor((max-min)/interval)+1 claimed by the specification does not hold (the
level at an exactly-attained minimum is scanned but yields no segments). -/
theorem contours_planar_spec (grid : ℕ → ℕ → Option ℚ) (rows cols : ℕ)
    (interval : ℚ) (mm : ℤ) (a b g : ℚ)
    (hrows : 2 ≤ rows) (hcols : 2 ≤ cols) (hint : 0 < interval)
    (hnc : a ≠ 0 ∨ b ≠ 0)
    (hgrid : ∀ r c, r < rows → c < cols →
      grid r c = some (a * (r : ℚ) + b * (c : ℚ) + g)) :
    (∀ cl ∈ generateContours grid rows cols interval mm,
      ∀ pl ∈ cl.polylines, ∀ p ∈ pl,
        b * p.1 + a * p.2 + g = cl.level) ∧
    (generateContours grid rows cols interval mm).map ContourLevel.level =
      (scanLevels interval (gridMax grid rows cols)
        (levelFuel (startLevel grid rows cols interval)
          (gridMax grid rows cols) interval)
        (startLevel grid rows cols interval)).filter
        (fun L => decide (gridMin grid rows cols < L ∧
          L ≤ gridMax grid rows cols)) := by
  have hlen4 : ¬ (gridVals grid rows cols).length < 4 := by
    rw [gridVals_total_length hgrid]
    have := Nat.mul_le_mul hrows hcols
    omega
  have hguard : generateContours grid rows cols interval mm =
      contourLoop grid rows cols interval (gridMax grid rows cols) mm
        (levelFuel (startLevel grid rows cols interval)
          (gridMax grid rows cols) interval)
        (startLevel grid rows cols interval) := by
    unfold generateContours
    rw [if_neg (by omega), if_neg hlen4]
  constructor
  · intro cl hcl pl hpl p hp
    rw [hguard] at hcl
    have hply := contourLoop_mem _ _ cl hcl
    rw [hply] at hpl
    exact mergeSegments_points _ _
      (fun q => b * q.1 + a * q.2 + g = cl.level)
      (fun s hs => computeSegments_on_line hgrid s hs) pl hpl p hp
  · rw [hguard]
    apply contourLoop_filter
    intro L
    constructor
    · intro hne
      have hseg : computeSegments grid rows cols L ≠ [] := by
        intro h0
        rw [h0] at hne
        exact hne rfl
      exact (computeSegments_ne_nil_iff hrows hcols hgrid).mp hseg
    · intro hc
      exact mergeSegments_ne_nil _
        ((computeSegments_ne_nil_iff hrows hcols hgrid).mpr hc)

/-- Witness for C3 on the concrete planar grid z = row + col over 2x2 with
interval 1. -/
theorem contours_planar_spec_witness :
    (∀ cl ∈ generateContours gDiag 2 2 1 5,
      ∀ pl ∈ cl.polylines, ∀ p ∈ pl,
        1 * p.1 + 1 * p.2 + 0 = cl.level) ∧
    (generateContours gDiag 2 2 1 5).map ContourLevel.level =
      (scanLevels 1 (gridMax gDiag 2 2)
        (levelFuel (startLevel gDiag 2 2 1) (gridMax gDiag 2 2) 1)
        (startLevel gDiag 2 2 1)).filter
        (fun L => decide (gridMin gDiag 2 2 < L ∧
          L ≤ gridMax gDiag 2 2)) :=
  contours_planar_spec gDiag 2 2 1 5 1 1 0 (by norm_num) (by norm_num)
    (by norm_num) (Or.inl one_ne_zero)
    (fun r c _ _ => by simp [gDiag])

end TerraGrid
